import Mathlib

/-!
Verification of the jarvis live voice-interaction front end.

The development shallowly embeds the text-reconstruction engine
(`sanitizeModelOutput`, `appendChunkWithSpacing`, `extractSections`,
`dedupeTechnicalDefinition`, …) and the turn/session state machine
(`onmessage`, `toggleAnsweringMode`, `stopSession`) of `src/App.tsx`,
together with the older handler variant kept in `src/unnamed/part_001`
(namespace `Variant`).  Strings are modelled as Lean `String`s; the
JavaScript-level operations (split, join, trim, regex scans) are
re-implemented character by character on `List Char`.  Recursions that
are not structural in the source (regex scans that jump over a match)
are written with an explicit fuel argument instantiated with the input
length, so that every definition evaluates by kernel reduction.
-/

namespace Jarvis

/-- JavaScript `\s` / `String.prototype.trim` whitespace class
(ECMA-262 WhiteSpace ∪ LineTerminator). -/
def isJsSpace (c : Char) : Bool :=
  c = ' ' || c = '\t' || c = '\n' || c = '\r' || c.toNat = 11 || c.toNat = 12 ||
  c.toNat = 0xA0 || c.toNat = 0x1680 || (0x2000 ≤ c.toNat && c.toNat ≤ 0x200A) ||
  c.toNat = 0x2028 || c.toNat = 0x2029 || c.toNat = 0x202F || c.toNat = 0x205F ||
  c.toNat = 0x3000 || c.toNat = 0xFEFF

/-- Right trim, via the reversal of a left trim (JS `trim` removes the
maximal whitespace suffix). -/
def jsTrimRight (l : List Char) : List Char :=
  (l.reverse.dropWhile isJsSpace).reverse

/-- Core of JS `String.prototype.trim` on character lists. -/
def jsTrimCore (l : List Char) : List Char :=
  jsTrimRight (l.dropWhile isJsSpace)

/-- JS `String.prototype.trim`. -/
def jsTrim (s : String) : String := ⟨jsTrimCore s.data⟩

/-- JS `String.prototype.split` with a single-character separator. -/
def splitOnChar (sep : Char) : List Char → List (List Char)
  | [] => [[]]
  | c :: cs =>
    if c = sep then [] :: splitOnChar sep cs
    else
      match splitOnChar sep cs with
      | [] => [[c]]
      | h :: t => (c :: h) :: t

/-- JS `Array.prototype.join` with a single-character separator. -/
def joinChar (sep : Char) : List (List Char) → List Char
  | [] => []
  | [x] => x
  | x :: y :: t => x ++ sep :: joinChar sep (y :: t)

/-- Substring test, JS `String.prototype.includes` on character lists. -/
def containsSub (hay needle : List Char) : Bool :=
  if needle.isPrefixOf hay then true
  else
    match hay with
    | [] => false
    | _ :: t => containsSub t needle

/-- The control-directive line prefixes stripped by `sanitizeModelOutput`
(`src/App.tsx` lines 45-61). -/
def badStarts : List (List Char) :=
  [("AUTO TASK:").data, ("Topic lock:").data, ("Do not change topic.").data,
   ("Do not restart from scratch.").data, ("Expand the current explanation").data]

/-- The filter predicate of `sanitizeModelOutput`: keep a line unless its
trimmed form starts with one of the control prefixes. -/
def keepLine (line : List Char) : Bool :=
  ! badStarts.any (fun p => p.isPrefixOf (jsTrimCore line))

/-- JS `replace(/\n{3,}/g, "\n\n")`: every maximal run of three or more
newlines becomes exactly two.  `fuel` is instantiated with the input
length; each step consumes at least one character. -/
def collapseNlF : Nat → List Char → List Char
  | 0, _ => []
  | _ + 1, [] => []
  | f + 1, c :: cs =>
    if c = '\n' then
      let k := 1 + (cs.takeWhile (fun d => d = '\n')).length
      if 3 ≤ k then '\n' :: '\n' :: collapseNlF f ((c :: cs).drop k)
      else (c :: cs).take k ++ collapseNlF f ((c :: cs).drop k)
    else c :: collapseNlF f cs

/-- `replace(/\n{3,}/g, "\n\n")` with the fuel fixed to the input length. -/
def collapseNl (l : List Char) : List Char := collapseNlF l.length l

/-- `sanitizeModelOutput` of `src/App.tsx` lines 45-61 on character
lists: split into lines, drop leaked directive lines, re-join, collapse
runs of three or more newlines to a blank line, trim. -/
def sanitizeCore (l : List Char) : List Char :=
  jsTrimCore (collapseNl (joinChar '\n' (((splitOnChar '\n' l).filter keepLine))))

/-- `sanitizeModelOutput` of `src/App.tsx` lines 45-61. -/
def sanitizeModelOutput (s : String) : String := ⟨sanitizeCore s.data⟩

/-- The character class `[A-Za-z0-9\)]` tested on the last accumulated
character by `appendChunkWithSpacing`. -/
def isBoundaryRight (c : Char) : Bool :=
  ('A' ≤ c && c ≤ 'Z') || ('a' ≤ c && c ≤ 'z') || ('0' ≤ c && c ≤ '9') || c = ')'

/-- The character class `[A-Za-z0-9\(]` tested on the first chunk
character by `appendChunkWithSpacing`. -/
def isBoundaryLeft (c : Char) : Bool :=
  ('A' ≤ c && c ≤ 'Z') || ('a' ≤ c && c ≤ 'z') || ('0' ≤ c && c ≤ '9') || c = '('

/-- `appendChunkWithSpacing` of `src/App.tsx` lines 63-76: empty-side
short circuits, then a single space is inserted exactly when both
boundary characters are word-like and neither is a newline. -/
def appendChunkWithSpacing (current chunk : String) : String :=
  if current = "" then chunk
  else if chunk = "" then current
  else
    let prevChar := current.data.getLastD ' '
    let nextChar := chunk.data.headD ' '
    let needsSpace := isBoundaryRight prevChar && isBoundaryLeft nextChar &&
      prevChar ≠ '\n' && nextChar ≠ '\n'
    if needsSpace then current ++ " " ++ chunk else current ++ chunk

/-- `isEnglishLike` of `src/App.tsx` lines 78-81: true iff no character
lies outside U+0000–U+007F. -/
def isEnglishLike (s : String) : Bool :=
  s.data.all (fun c => c.toNat ≤ 0x7F)

/-! ## Data model (`src/types.ts`) -/

/-- `TranscriptionItem` of `src/types.ts`; `role` is kept as a string
(`"user"` / `"model"`). -/
structure TranscriptionItem where
  id : String
  role : String
  text : String
  timestamp : Nat
  isComplete : Bool
  deriving DecidableEq

/-- `LiveSessionState` of `src/types.ts`. -/
structure LiveSessionState where
  isActive : Bool
  isConnecting : Bool
  error : Option String
  deriving DecidableEq

/-! ## Turn/session state machine (`src/App.tsx`)

The React component state and the mutable refs read inside the live
callbacks are gathered into one `AppState` record.  `currentQuestion`
is the rendered state set through `setCurrentQuestion`;
`currentQuestionRef` is the ref that the `useEffect` hook synchronises
only after a re-render, so inside a single callback it can lag behind
`currentQuestion`.  The resource handles held in refs
(`scriptProcessorRef`, `sessionRef`, `micStreamRef`,
`audioContextRef`) are modelled by presence booleans. -/

structure AppState where
  activeResponse : Option TranscriptionItem
  currentQuestion : String
  isUserAnswering : Bool
  sessionState : LiveSessionState
  isStopping : Bool
  lastSessionError : Option String
  streamingText : String
  questionAccumulator : String
  currentQuestionRef : String
  lockedTopic : String
  lastTurnWasComplete : Bool
  responseInProgress : Bool
  hasScriptProcessor : Bool
  hasSession : Bool
  hasMicStream : Bool
  hasAudioContext : Bool
  deriving DecidableEq

/-- The incoming `LiveServerMessage` fields read by the `onmessage`
callback of `src/App.tsx`: the user-speech transcription fragment, the
direct `message.text`, the model-turn part texts, the output-audio
transcription, and the turn-complete flag. -/
structure LiveServerMessage where
  inputTranscription : Option String
  text : Option String
  modelParts : Option (List String)
  outputTranscription : Option String
  turnComplete : Bool

/-- The fixed warning shown for a non-ASCII transcription fragment
(`src/App.tsx` line 228). -/
def englishWarning : String := "English only input detected. Please speak in English."

/-- A JavaScript runtime exception escaping a handler. -/
inductive JsError where
  | referenceError (name : String)
  deriving DecidableEq

/-- The user-transcription block of `onmessage` (`src/App.tsx` lines
222-247).  Returns the updated state and `false` when the handler
executed `return` (non-English fragment), `true` when control falls
through to the model-output block. -/
def handleTranscription (s : AppState) (msg : LiveServerMessage) : AppState × Bool :=
  match msg.inputTranscription with
  | none => (s, true)
  | some t =>
    if s.isUserAnswering then (s, true)
    else if t = "" then (s, true)
    else if ¬ isEnglishLike t then ({ s with currentQuestion := englishWarning }, false)
    else
      let s1 :=
        if s.lastTurnWasComplete then
          { s with
            questionAccumulator := "",
            activeResponse := if s.isUserAnswering then s.activeResponse else none,
            streamingText := if s.isUserAnswering then s.streamingText else "",
            currentQuestion := "",
            lastTurnWasComplete := false }
        else s
      let acc := s1.questionAccumulator ++ t
      ({ s1 with questionAccumulator := acc, currentQuestion := acc, lockedTopic := acc }, true)

/-- The chunk selection of `onmessage` (`src/App.tsx` lines 249-256):
`message.text || modelPartsText || outputTranscription?.text`, where
JS `||` skips empty strings and `undefined` alike. -/
def computeTextChunk (msg : LiveServerMessage) : String :=
  let t1 := msg.text.getD ""
  let modelPartsText := match msg.modelParts with
    | none => ""
    | some ps => String.join ps
  if t1 ≠ "" then t1
  else if modelPartsText ≠ "" then modelPartsText
  else msg.outputTranscription.getD ""

/-- The model-output block of `onmessage` (`src/App.tsx` lines 258-275).
Returns `false` when the handler executed `return` (chunk sanitized to
nothing), `true` when control falls through to the turn-complete block. -/
def handleChunk (now : Nat) (s : AppState) (msg : LiveServerMessage) : AppState × Bool :=
  let tc := computeTextChunk msg
  if tc = "" then (s, true)
  else
    let cleanedChunk := sanitizeModelOutput tc
    if cleanedChunk = "" then (s, false)
    else
      let st0 :=
        if s.isUserAnswering && ! s.responseInProgress && s.streamingText != "" then
          s.streamingText ++ "\n\n"
        else s.streamingText
      let st1 := appendChunkWithSpacing st0 cleanedChunk
      ({ s with
          responseInProgress := true,
          streamingText := st1,
          activeResponse := some ⟨"stream", "model", st1, now, false⟩ }, true)

/-- The turn-complete block of `onmessage` (`src/App.tsx` lines 277-284). -/
def handleTurnComplete (s : AppState) (msg : LiveServerMessage) : AppState :=
  if msg.turnComplete then
    { s with
      lastTurnWasComplete := true,
      responseInProgress := false,
      lockedTopic := if s.currentQuestionRef ≠ "" then s.currentQuestionRef else s.lockedTopic,
      activeResponse := s.activeResponse.map (fun it => { it with isComplete := true }) }
  else s

/-- The `onmessage` callback of `src/App.tsx` lines 221-285, with `now`
standing for `Date.now()`.  Early `return`s abort the later blocks. -/
def onmessage (now : Nat) (msg : LiveServerMessage) (s : AppState) : AppState :=
  let r1 := handleTranscription s msg
  if r1.2 = false then r1.1
  else
    let r2 := handleChunk now r1.1 msg
    if r2.2 = false then r2.1
    else handleTurnComplete r2.1 msg

/-- `toggleAnsweringMode` of `src/App.tsx` lines 104-127.  The exit
branch assigns to `currentTurnTextRef`, an identifier that is never
declared anywhere in `src/App.tsx`; at that point the function throws a
`ReferenceError`, so the two assignments after it
(`responseInProgressRef.current = false` and
`lastTurnWasCompleteRef.current = true`) never execute.  The returned
pair carries the mutations performed before the throw together with the
escaping error. -/
def toggleAnsweringMode (s : AppState) : AppState × Option JsError :=
  let next := ¬ s.isUserAnswering
  let s0 := { s with isUserAnswering := next }
  if next then
    let latestTopic :=
      if jsTrim s0.currentQuestionRef ≠ "" then jsTrim s0.currentQuestionRef
      else jsTrim s0.lockedTopic
    let s1 := if latestTopic ≠ "" then { s0 with lockedTopic := latestTopic } else s0
    ({ s1 with responseInProgress := false }, none)
  else
    let s1 := { s0 with
      currentQuestion := "",
      activeResponse := none,
      questionAccumulator := "",
      currentQuestionRef := "",
      streamingText := "" }
    (s1, some (JsError.referenceError "currentTurnTextRef"))

/-- One resource-release side effect of `stopSession`. -/
inductive ReleaseAction where
  | disconnectProcessor
  | closeSession
  | stopMicTracks
  | closeAudioContext
  deriving DecidableEq

/-- The optional argument of `stopSession`. -/
structure StopOpts where
  error : Option String
  initiatedByClose : Bool
  deriving DecidableEq

/-- `stopSession` of `src/App.tsx` lines 141-176: the in-flight latch
`isStoppingRef` makes re-entrant calls no-ops; each resource is
released and nulled independently; the session state is forced
inactive; the latch is cleared in the `finally` block.  The second
component logs the release side effects in order. -/
def stopSession (opts : Option StopOpts) (s : AppState) : AppState × List ReleaseAction :=
  if s.isStopping then (s, [])
  else
    let s0 := { s with isStopping := true }
    let l1 : List ReleaseAction :=
      if s0.hasScriptProcessor then [ReleaseAction.disconnectProcessor] else []
    let s1 := { s0 with hasScriptProcessor := false }
    let initiatedByClose := (opts.map (fun o => o.initiatedByClose)).getD false
    let l2 : List ReleaseAction :=
      if s1.hasSession && ! initiatedByClose then [ReleaseAction.closeSession] else []
    let s2 := { s1 with hasSession := false }
    let l3 : List ReleaseAction :=
      if s2.hasMicStream then [ReleaseAction.stopMicTracks] else []
    let s3 := { s2 with hasMicStream := false }
    let l4 : List ReleaseAction :=
      if s3.hasAudioContext then [ReleaseAction.closeAudioContext] else []
    let s4 := { s3 with hasAudioContext := false }
    let finalError := opts.bind (fun o => o.error)
    let s5 := if finalError.isSome then { s4 with lastSessionError := finalError } else s4
    let s6 := { s5 with
      sessionState := ⟨false, false, finalError⟩,
      responseInProgress := false }
    ({ s6 with isStopping := false }, l1 ++ l2 ++ l3 ++ l4)

/-! ## The older handler variant (`src/unnamed/part_001`, second copy)

This is the `App` revision whose `onmessage` drops a generated-text
chunk outright when AnsweringMode is on and no response is in progress
(`src/unnamed/part_001` lines 402-415).  It has fewer refs than the
current `App.tsx`: no locked topic, no English filter, and no
sanitizer. -/

namespace Variant

/-- Component state of the `src/unnamed/part_001` (second copy) `App`. -/
structure VState where
  activeResponse : Option Jarvis.TranscriptionItem
  currentQuestion : String
  isUserAnswering : Bool
  sessionState : Jarvis.LiveSessionState
  streamingText : String
  questionAccumulator : String
  lastTurnWasComplete : Bool
  responseInProgress : Bool
  deriving DecidableEq

/-- The message fields read by the variant's `onmessage`: it reads only
`modelTurn.parts[0].text` and the output transcription for chunks. -/
structure VMessage where
  inputTranscription : Option String
  firstPartText : Option String
  outputTranscription : Option String
  turnComplete : Bool

/-- Chunk selection of the variant:
`parts?.[0]?.text || outputTranscription?.text`. -/
def vComputeTextChunk (msg : VMessage) : String :=
  let t1 := msg.firstPartText.getD ""
  if t1 ≠ "" then t1 else msg.outputTranscription.getD ""

/-- `onmessage` of `src/unnamed/part_001` lines 381-422.  The gate at
lines 403-405 `return`s — dropping the chunk — whenever AnsweringMode
is on and no response is in progress. -/
def vOnmessage (now : Nat) (msg : VMessage) (s : VState) : VState :=
  let s1 :=
    match msg.inputTranscription with
    | none => s
    | some t =>
      if t = "" then s
      else
        let sA :=
          if s.lastTurnWasComplete then
            { s with
              questionAccumulator := "",
              streamingText := "",
              activeResponse :=
                if ! s.isUserAnswering && ! s.responseInProgress then none
                else s.activeResponse,
              currentQuestion := "",
              lastTurnWasComplete := false }
          else s
        let acc := sA.questionAccumulator ++ t
        { sA with questionAccumulator := acc, currentQuestion := acc }
  let tc := vComputeTextChunk msg
  if tc ≠ "" ∧ s1.isUserAnswering ∧ ¬ s1.responseInProgress then s1
  else
    let s2 :=
      if tc ≠ "" then
        let st := s1.streamingText ++ tc
        { s1 with
          responseInProgress := true,
          streamingText := st,
          activeResponse := some ⟨"stream", "model", st, now, false⟩ }
      else s1
    if msg.turnComplete then
      { s2 with
        lastTurnWasComplete := true,
        responseInProgress := false,
        activeResponse := s2.activeResponse.map (fun it => { it with isComplete := true }) }
    else s2

end Variant

/-! ## Section parser and paragraph dedup (`src/unnamed/part_001`,
`ResponseDisplay`, lines 574-645) -/

/-- The four section keys scanned by `extractSections`. -/
inductive Key where
  | TECHNICAL_DEFINITION
  | EXPLANATION
  | EXAMPLES
  | FLOW_DIAGRAM
  deriving DecidableEq

/-- The bracketed marker of a section key. -/
def markerString : Key → String
  | Key.TECHNICAL_DEFINITION => "[TECHNICAL_DEFINITION]"
  | Key.EXPLANATION => "[EXPLANATION]"
  | Key.EXAMPLES => "[EXAMPLES]"
  | Key.FLOW_DIAGRAM => "[FLOW_DIAGRAM]"

/-- Marker characters of a section key. -/
def markerC (k : Key) : List Char := (markerString k).data

/-- The alternation
`TECHNICAL_DEFINITION|EXPLANATION|EXAMPLES|FLOW_DIAGRAM` tried at one
position, in the regex's left-to-right order.  (At most one marker can
match at a given position, since no marker is a prefix of another.) -/
def markerAt (l : List Char) : Option Key :=
  if (markerC Key.TECHNICAL_DEFINITION).isPrefixOf l then some Key.TECHNICAL_DEFINITION
  else if (markerC Key.EXPLANATION).isPrefixOf l then some Key.EXPLANATION
  else if (markerC Key.EXAMPLES).isPrefixOf l then some Key.EXAMPLES
  else if (markerC Key.FLOW_DIAGRAM).isPrefixOf l then some Key.FLOW_DIAGRAM
  else none

/-- `text.matchAll(markerRegex)` (`src/unnamed/part_001` line 619): the
positions and keys of all marker occurrences, left to right, resuming
after each match.  `fuel` is instantiated with the input length. -/
def scanF : Nat → List Char → List (Nat × Key)
  | 0, _ => []
  | _ + 1, [] => []
  | f + 1, l@(_ :: cs) =>
    match markerAt l with
    | some k =>
      (0, k) :: (scanF f (l.drop (markerC k).length)).map
        (fun q => (q.1 + (markerC k).length, q.2))
    | none => (scanF f cs).map (fun q => (q.1 + 1, q.2))

/-- All marker matches of a document, with the fuel fixed to its length. -/
def scanMarkers (l : List Char) : List (Nat × Key) := scanF l.length l

/-- `value.replace(markerRegex, "")` (`src/unnamed/part_001` line 628):
delete every marker occurrence, left to right. -/
def removeMarkersF : Nat → List Char → List Char
  | 0, _ => []
  | _ + 1, [] => []
  | f + 1, l@(c :: cs) =>
    match markerAt l with
    | some k => removeMarkersF f (l.drop (markerC k).length)
    | none => c :: removeMarkersF f cs

/-- `replace(markerRegex, "")` with the fuel fixed to the input length. -/
def removeMarkers (l : List Char) : List Char := removeMarkersF l.length l

/-- The section record returned by `extractSections`: exactly the four
keys `TECHNICAL_DEFINITION`, `EXPLANATION`, `EXAMPLES`, `FLOW_DIAGRAM`. -/
structure Sections where
  TECHNICAL_DEFINITION : String
  EXPLANATION : String
  EXAMPLES : String
  FLOW_DIAGRAM : String
  deriving DecidableEq

/-- Field lookup `sections[key]`. -/
def sectionGet (secs : Sections) : Key → String
  | Key.TECHNICAL_DEFINITION => secs.TECHNICAL_DEFINITION
  | Key.EXPLANATION => secs.EXPLANATION
  | Key.EXAMPLES => secs.EXAMPLES
  | Key.FLOW_DIAGRAM => secs.FLOW_DIAGRAM

/-- Field store `sections[key] = v`. -/
def sectionSet (secs : Sections) (k : Key) (v : String) : Sections :=
  match k with
  | Key.TECHNICAL_DEFINITION => { secs with TECHNICAL_DEFINITION := v }
  | Key.EXPLANATION => { secs with EXPLANATION := v }
  | Key.EXAMPLES => { secs with EXAMPLES := v }
  | Key.FLOW_DIAGRAM => { secs with FLOW_DIAGRAM := v }

/-- `appendUnique` of `src/unnamed/part_001` lines 626-633: strip
markers from the block, trim it, skip it when empty or already
contained in the accumulated section, otherwise append it after a blank
line. -/
def appendUnique (k : Key) (block : List Char) (secs : Sections) : Sections :=
  let cleaned := jsTrimCore (removeMarkers block)
  if cleaned = [] then secs
  else if containsSub (sectionGet secs k).data cleaned then secs
  else
    sectionSet secs k
      (if (sectionGet secs k).data = [] then ⟨cleaned⟩
       else ⟨(sectionGet secs k).data ++ '\n' :: '\n' :: cleaned⟩)

/-- The end of the current match's block: the start of the next match,
or the end of the document (`i < matches.length - 1 ? matches[i+1].index
: text.length`, `src/unnamed/part_001` line 639). -/
def nextIndex (l : List Char) : List (Nat × Key) → Nat
  | (q, _) :: _ => q
  | [] => l.length

/-- The match loop of `extractSections` (`src/unnamed/part_001` lines
635-642): each match's block runs from the end of its marker to the
start of the next match (or the end of the document). -/
def buildSections (l : List Char) : List (Nat × Key) → Sections → Sections
  | [], secs => secs
  | (p, k) :: rest, secs =>
    let strt := p + (markerC k).length
    let nd := nextIndex l rest
    let block := (l.drop strt).take (nd - strt)
    buildSections l rest (appendUnique k block secs)

/-- `extractSections` of `src/unnamed/part_001` lines 610-645.  With no
matches the whole trimmed text goes to `EXPLANATION`; otherwise the
blocks between consecutive markers are accumulated, and the text before
the first marker is never sliced. -/
def extractSections (s : String) : Sections :=
  let ms := scanMarkers s.data
  if ms = [] then ⟨"", jsTrim s, "", ""⟩
  else buildSections s.data ms ⟨"", "", "", ""⟩

/-! ### `normalizeForCompare`, `isNearDuplicate`,
`dedupeTechnicalDefinition` (`src/unnamed/part_001` lines 575-608) -/

/-- JS `toLowerCase` restricted to ASCII (the inputs of interest are
ASCII; outside A-Z the character is returned unchanged). -/
def jsToLower (c : Char) : Char :=
  if 'A' ≤ c ∧ c ≤ 'Z' then Char.ofNat (c.toNat + 32) else c

/-- JS `replace(/\s+/g, " ")`: every maximal whitespace run becomes one
space.  `fuel` is instantiated with the input length. -/
def collapseSpF : Nat → List Char → List Char
  | 0, _ => []
  | _ + 1, [] => []
  | f + 1, c :: cs =>
    if isJsSpace c then ' ' :: collapseSpF f (cs.dropWhile isJsSpace)
    else c :: collapseSpF f cs

/-- `normalizeForCompare` of `src/unnamed/part_001` lines 575-580:
lowercase, replace non-alphanumerics by spaces, collapse whitespace,
trim. -/
def normalizeForCompare (s : String) : String :=
  let lo := s.data.map jsToLower
  let rep := lo.map (fun c =>
    if ('a' ≤ c && c ≤ 'z') || ('0' ≤ c && c ≤ '9') || isJsSpace c then c else ' ')
  ⟨jsTrimCore (collapseSpF rep.length rep)⟩

/-- Distinct word tokens of a normalized string (JS
`new Set(na.split(" "))` as a deduplicated list). -/
def tokenSet (l : List Char) : List (List Char) :=
  (splitOnChar ' ' l).dedup

/-- `isNearDuplicate` of `src/unnamed/part_001` lines 582-594: equal
normal forms, substring containment either way, or ≥ 80 % of the
smaller token set shared.  The floating comparison
`common / minSize >= 0.8` is modelled exactly as `5 * common ≥ 4 *
minSize`. -/
def isNearDuplicate (a b : String) : Bool :=
  let na := (normalizeForCompare a).data
  let nb := (normalizeForCompare b).data
  if na = [] || nb = [] then false
  else if na = nb then true
  else if containsSub na nb || containsSub nb na then true
  else
    let tokensA := tokenSet na
    let tokensB := tokenSet nb
    let common := (tokensA.filter (fun t => tokensB.contains t)).length
    let minSize := max 1 (min tokensA.length tokensB.length)
    5 * common ≥ 4 * minSize

/-- The `or`-filler test
`/^(or|or\.|or,)\s*$/i` of `src/unnamed/part_001` line 600. -/
def isOrFiller (l : List Char) : Bool :=
  match l with
  | o :: r :: rest =>
    (o = 'o' || o = 'O') && (r = 'r' || r = 'R') &&
      (rest.all isJsSpace ||
        match rest with
        | p :: rest2 => (p = '.' || p = ',') && rest2.all isJsSpace
        | [] => true)
  | _ => false

/-- `Array.prototype.join` with an arbitrary separator list. -/
def joinSep (sep : List Char) : List (List Char) → List Char
  | [] => []
  | [x] => x
  | x :: y :: t => x ++ sep ++ joinSep sep (y :: t)

/-- `split("\n\n")`: split on the two-character blank-line separator,
left to right. -/
def splitParas : List Char → List (List Char)
  | [] => [[]]
  | '\n' :: '\n' :: rest => [] :: splitParas rest
  | c :: cs =>
    match splitParas cs with
    | [] => [[c]]
    | h :: t => (c :: h) :: t

/-- `dedupeTechnicalDefinition` of `src/unnamed/part_001` lines 596-608:
split into paragraphs, trim, drop empties and `or`-fillers, keep each
paragraph unless it is a near duplicate of one already kept, re-join
with blank lines. -/
def dedupeTechnicalDefinition (s : String) : String :=
  let paragraphs := ((splitParas s.data).map (fun p => jsTrimCore p)).filter
    (fun p => p ≠ [] && ! isOrFiller p)
  let kept := paragraphs.foldl
    (fun kept para =>
      if kept.any (fun existing => isNearDuplicate ⟨existing⟩ ⟨para⟩) then kept
      else kept ++ [para])
    ([] : List (List Char))
  ⟨joinSep ['\n', '\n'] kept⟩

/-! ## Concrete states and messages used in the claim theorems -/

/-- A quiescent component state: fresh refs, inactive session. -/
def baseAppState : AppState :=
  { activeResponse := none, currentQuestion := "", isUserAnswering := false,
    sessionState := ⟨false, false, none⟩, isStopping := false, lastSessionError := none,
    streamingText := "", questionAccumulator := "", currentQuestionRef := "",
    lockedTopic := "", lastTurnWasComplete := true, responseInProgress := false,
    hasScriptProcessor := false, hasSession := false, hasMicStream := false,
    hasAudioContext := false }

/-- A pure generated-text message carrying the chunk `"Hello"`. -/
def chunkHelloMsg : LiveServerMessage := ⟨none, some "Hello", none, none, false⟩

/-- AnsweringMode on, no answer in progress, prior answer text on screen. -/
def answeringIdleState : AppState :=
  { baseAppState with
    isUserAnswering := true, responseInProgress := false,
    streamingText := "Old",
    activeResponse := some ⟨"stream", "model", "Old", 1, true⟩ }

/-- State inside AnsweringMode with an unfinished turn, used to watch the
exit branch of `toggleAnsweringMode`. -/
def answeringBusyState : AppState :=
  { baseAppState with
    isUserAnswering := true, responseInProgress := true,
    lastTurnWasComplete := false, streamingText := "old answer",
    currentQuestion := "old question", questionAccumulator := "old question",
    currentQuestionRef := "old question" }

/-- A pure transcription message carrying the fragment `"Hello"`. -/
def fragmentHelloMsg : LiveServerMessage := ⟨some "Hello", none, none, none, false⟩

/-- A state whose locked topic is already set to a non-empty value. -/
def lockedTopicState : AppState :=
  { baseAppState with
    lockedTopic := "What is caching?", lastTurnWasComplete := true }

/-- A transcription-only message with a non-ASCII fragment. -/
def fragmentCafeMsg : LiveServerMessage := ⟨some "café", none, none, none, false⟩

/-- A message carrying a non-ASCII fragment together with a text chunk
and a turn-complete flag. -/
def fragmentCafeFullMsg : LiveServerMessage := ⟨some "café", some "X", none, none, true⟩

/-- A state listening normally (AnsweringMode off) with an accumulated
question. -/
def listeningState : AppState :=
  { baseAppState with
    questionAccumulator := "What is", lastTurnWasComplete := false,
    currentQuestion := "What is", lockedTopic := "What is" }

/-- An active session holding all four resources. -/
def activeSessionState : AppState :=
  { baseAppState with
    sessionState := ⟨true, false, none⟩, hasScriptProcessor := true,
    hasSession := true, hasMicStream := true, hasAudioContext := true }

/-- A state already inside a `stopSession` call (latch set). -/
def stoppingState : AppState :=
  { activeSessionState with isStopping := true }

/-- Variant state: AnsweringMode on, no response in progress. -/
def vAnsweringIdleState : Variant.VState :=
  { activeResponse := some ⟨"stream", "model", "Old", 1, true⟩,
    currentQuestion := "q", isUserAnswering := true,
    sessionState := ⟨true, false, none⟩, streamingText := "Old",
    questionAccumulator := "q", lastTurnWasComplete := true,
    responseInProgress := false }

/-- Variant message: a pure generated-text chunk. -/
def vChunkMsg : Variant.VMessage := ⟨none, some "chunk", none, false⟩

/-! ## Marker-scan lemmas (for the section-parser claims)

`scanMarkers` is the embedding of `text.matchAll(markerRegex)`.  The
lemmas below establish that it finds exactly the marker occurrences,
in strictly increasing positions, which in turn shows that the blocks
sliced between consecutive matches never contain a marker. -/

theorem markerC_length_pos (k : Key) : 0 < (markerC k).length := by
  cases k <;> decide

theorem markerC_ne_nil (k : Key) : markerC k ≠ [] := by
  cases k <;> decide

theorem markerC_no_newline (k : Key) : '\n' ∉ markerC k := by
  cases k <;> decide

theorem markerC_head (k : Key) : (markerC k).head? = some '[' := by
  cases k <;> decide

theorem markerC_drop_no_bracket (k : Key) :
    ∀ p, p < (markerC k).length → 0 < p → ((markerC k).drop p).head? ≠ some '[' := by
  cases k <;> decide

theorem markerC_prefix_eq (k k' : Key) (h : markerC k <+: markerC k') : k = k' := by
  have hb : (markerC k).isPrefixOf (markerC k') = true := by
    exact List.isPrefixOf_iff_prefix.mpr h
  revert hb
  cases k <;> cases k' <;> decide

/-- A list starting with a nonempty prefix has the prefix's head. -/
theorem head?_append_left {a : List Char} (b : List Char) (h : a ≠ []) :
    (a ++ b).head? = a.head? := by
  cases a with
  | nil => exact absurd rfl h
  | cons c cs => rfl

theorem head?_of_prefix {a b : List Char} (h : a <+: b) (ha : a ≠ []) :
    b.head? = a.head? := by
  obtain ⟨t, rfl⟩ := h
  exact head?_append_left t ha

theorem markerAt_some_prefix {l : List Char} {k : Key} (h : markerAt l = some k) :
    markerC k <+: l := by
  unfold markerAt at h
  split_ifs at h with h1 h2 h3 h4
  all_goals injection h with h
  all_goals subst h
  all_goals exact List.isPrefixOf_iff_prefix.mp (by assumption)

theorem markerAt_none {l : List Char} (h : markerAt l = none) :
    ∀ k : Key, ¬ markerC k <+: l := by
  intro k hk
  have hb : (markerC k).isPrefixOf l = true := List.isPrefixOf_iff_prefix.mpr hk
  unfold markerAt at h
  split_ifs at h with h1 h2 h3 h4
  cases k <;> simp_all

theorem markerAt_of_prefix {l : List Char} {k : Key} (h : markerC k <+: l) :
    markerAt l = some k := by
  cases he : markerAt l with
  | none => exact absurd h (markerAt_none he k)
  | some k1 =>
    have h1 : markerC k1 <+: l := markerAt_some_prefix he
    rcases List.prefix_or_prefix_of_prefix h h1 with hp | hp
    · rw [markerC_prefix_eq k k1 hp]
    · rw [markerC_prefix_eq k1 k hp]

theorem scanF_sound :
    ∀ (f : Nat) (l : List Char) (p : Nat) (k : Key),
      (p, k) ∈ scanF f l → markerC k <+: l.drop p := by
  intro f
  induction f with
  | zero => intro l p k h; exact absurd h (by simp [scanF])
  | succ f ih =>
    intro l p k h
    cases l with
    | nil => exact absurd h (by simp [scanF])
    | cons c cs =>
      rw [scanF] at h
      cases hm : markerAt (c :: cs) with
      | some k0 =>
        rw [hm] at h
        rcases List.mem_cons.mp h with he | hmem
        · injection he with h1 h2
          subst h1
          subst h2
          simpa using markerAt_some_prefix hm
        · obtain ⟨⟨q1, q2⟩, hq, hqe⟩ := List.mem_map.mp hmem
          injection hqe with h1 h2
          subst h1
          subst h2
          have h3 := ih _ _ _ hq
          rw [List.drop_drop] at h3
          simpa [Nat.add_comm] using h3
      | none =>
        rw [hm] at h
        obtain ⟨⟨q1, q2⟩, hq, hqe⟩ := List.mem_map.mp h
        injection hqe with h1 h2
        subst h1
        subst h2
        have h3 := ih _ _ _ hq
        simpa [List.drop_succ_cons] using h3

theorem scanF_complete :
    ∀ (f : Nat) (l : List Char) (p : Nat) (k : Key),
      l.length ≤ f → markerC k <+: l.drop p → (p, k) ∈ scanF f l := by
  intro f
  induction f with
  | zero =>
    intro l p k hf h
    have : l = [] := List.eq_nil_of_length_eq_zero (Nat.le_zero.mp hf)
    subst this
    simp at h
    exact absurd h (markerC_ne_nil k)
  | succ f ih =>
    intro l p k hf h
    cases l with
    | nil =>
      simp at h
      exact absurd h (markerC_ne_nil k)
    | cons c cs =>
      rw [scanF]
      cases hm : markerAt (c :: cs) with
      | some k0 =>
        have hm0 : markerC k0 <+: c :: cs := markerAt_some_prefix hm
        rcases Nat.eq_zero_or_pos p with h0 | h0
        · subst h0
          simp only [List.drop_zero] at h
          have : markerAt (c :: cs) = some k := markerAt_of_prefix h
          rw [hm] at this
          injection this with this
          subst this
          exact List.mem_cons_self _ _
        · rcases Nat.lt_or_ge p (markerC k0).length with hlt | hge
          · exfalso
            obtain ⟨rest, hrest⟩ := hm0
            have hdrop : (c :: cs).drop p = (markerC k0).drop p ++ rest := by
              rw [← hrest, List.drop_append_eq_append_drop,
                Nat.sub_eq_zero_of_le (Nat.le_of_lt hlt), List.drop_zero]
            have hne : (markerC k0).drop p ≠ [] := by
              intro hnil
              have := congrArg List.length hnil
              simp [List.length_drop] at this
              omega
            have h1 : ((c :: cs).drop p).head? = some '[' := by
              rw [ head?_of_prefix h (markerC_ne_nil k)]
              exact markerC_head k
            rw [hdrop, head?_append_left rest hne] at h1
            exact markerC_drop_no_bracket k0 p hlt h0 h1
          · have hlen : ((c :: cs).drop (markerC k0).length).length ≤ f := by
              rw [List.length_drop]
              have := markerC_length_pos k0
              simp at hf ⊢
              omega
            have hocc : markerC k <+: ((c :: cs).drop (markerC k0).length).drop
                (p - (markerC k0).length) := by
              rw [List.drop_drop]
              have he : (markerC k0).length + (p - (markerC k0).length) = p := by omega
              rw [he]
              exact h
            have hmem := ih _ _ _ hlen hocc
            refine List.mem_cons.mpr (Or.inr (List.mem_map.mpr ⟨_, hmem, ?_⟩))
            simp
            omega
      | none =>
        cases p with
        | zero =>
          simp only [List.drop_zero] at h
          exact absurd ( markerAt_of_prefix h) (by simp [hm])
        | succ p' =>
          rw [List.drop_succ_cons] at h
          have hlen : cs.length ≤ f := by simp at hf; omega
          have := ih _ _ _ hlen h
          exact List.mem_map.mpr ⟨_, this, rfl⟩

theorem scanF_pairwise :
    ∀ (f : Nat) (l : List Char),
      (scanF f l).Pairwise (fun a b => a.1 + (markerC a.2).length ≤ b.1) := by
  intro f
  induction f with
  | zero => intro l; simp [scanF]
  | succ f ih =>
    intro l
    cases l with
    | nil => simp [scanF]
    | cons c cs =>
      rw [scanF]
      cases hm : markerAt (c :: cs) with
      | some k0 =>
        refine List.pairwise_cons.mpr ⟨?_, ?_⟩
        · intro b hb
          obtain ⟨⟨q1, q2⟩, hq, hqe⟩ := List.mem_map.mp hb
          subst hqe
          simp
        · rw [List.pairwise_map]
          refine (ih _).imp ?_
          intro a b hab
          simp only []
          omega
      | none =>
        rw [List.pairwise_map]
        refine (ih cs).imp ?_
        intro a b hab
        simp only []
        omega

/-! ## Infix decomposition lemmas -/

theorem infix_iff_exists_drop {M l : List Char} :
    M <:+: l ↔ ∃ p, M <+: l.drop p := by
  constructor
  · rintro ⟨s, t, rfl⟩
    refine ⟨s.length, t, ?_⟩
    rw [List.append_assoc, List.drop_left]
  · rintro ⟨p, t, ht⟩
    refine ⟨l.take p, t, ?_⟩
    rw [List.append_assoc, ht, List.take_append_drop]

theorem infix_of_infix_cons {M : List Char} {c : Char} {l : List Char}
    (h : M <:+: l) : M <:+: c :: l := by
  obtain ⟨s, t, rfl⟩ := h
  exact ⟨c :: s, t, rfl⟩

theorem prefix_append_cases {M a b : List Char} (h : M <+: a ++ b) :
    M <+: a ∨ ∃ M2, M = a ++ M2 ∧ M2 <+: b := by
  rcases le_or_lt M.length a.length with hle | hlt
  · left
    exact List.prefix_of_prefix_length_le h (List.prefix_append a b) hle
  · right
    have ha : a <+: M :=
      List.prefix_of_prefix_length_le (List.prefix_append a b) h (Nat.le_of_lt hlt)
    obtain ⟨M2, rfl⟩ := ha
    refine ⟨M2, rfl, ?_⟩
    obtain ⟨u, hu⟩ := h
    rw [List.append_assoc] at hu
    exact ⟨u, List.append_cancel_left hu⟩

theorem infix_append_cases {M a b : List Char} (h : M <:+: a ++ b) :
    M <:+: a ∨ M <:+: b ∨
      ∃ m1 m2, M = m1 ++ m2 ∧ m1 ≠ [] ∧ m2 ≠ [] ∧ m2 <+: b := by
  obtain ⟨p, hp⟩ := infix_iff_exists_drop.mp h
  rw [List.drop_append_eq_append_drop] at hp
  rcases prefix_append_cases hp with h1 | ⟨M2, rfl, hM2⟩
  · left
    exact infix_iff_exists_drop.mpr ⟨p, h1⟩
  · by_cases hm1 : a.drop p = []
    · right; left
      rw [hm1, List.nil_append]
      exact infix_iff_exists_drop.mpr ⟨p - a.length, hM2⟩
    · by_cases hm2 : M2 = []
      · left
        rw [hm2, List.append_nil]
        exact List.IsSuffix.isInfix (List.drop_suffix p a)
      · right; right
        have hplt : p < a.length := by
          by_contra hge
          exact hm1 (List.drop_eq_nil_of_le (Nat.le_of_not_lt hge))
        rw [Nat.sub_eq_zero_of_le (Nat.le_of_lt hplt), List.drop_zero] at hM2
        exact ⟨a.drop p, M2, rfl, hm1, hm2, hM2⟩

theorem marker_not_infix_cons_nl {b : List Char} {k : Key}
    (hb : ¬ markerC k <:+: b) : ¬ markerC k <:+: '\n' :: b := by
  intro h
  rcases List.infix_cons_iff.mp h with hpre | hinf
  · have := head?_of_prefix hpre (markerC_ne_nil k)
    rw [markerC_head k] at this
    simp at this
  · exact hb hinf

theorem markerFree_append_sep {a b : List Char}
    (ha : ∀ k, ¬ markerC k <:+: a) (hb : ∀ k, ¬ markerC k <:+: b) :
    ∀ k, ¬ markerC k <:+: a ++ '\n' :: '\n' :: b := by
  intro k h
  rcases infix_append_cases h with h1 | h1 | ⟨m1, m2, hM, hm1, hm2, hpre⟩
  · exact ha k h1
  · exact marker_not_infix_cons_nl (marker_not_infix_cons_nl (hb k)) h1
  · have hhd : m2.head? = some '\n' := by
      have := head?_of_prefix hpre hm2
      simpa using this.symm
    have hnl : '\n' ∈ m2 := by
      cases m2 with
      | nil => exact absurd rfl hm2
      | cons c cs =>
        injection hhd with hhd
        rw [← hhd]
        exact List.mem_cons_self _ _
    have h6 : '\n' ∈ markerC k := by
      rw [hM]
      exact List.mem_append.mpr (Or.inr hnl)
    exact markerC_no_newline k h6

theorem infix_slice {M l : List Char} {a m : Nat}
    (h : M <:+: (l.drop a).take m) :
    ∃ r, a ≤ r ∧ r + M.length ≤ a + m ∧ M <+: l.drop r := by
  obtain ⟨s, t, hst⟩ := h
  have hlen : s.length + M.length ≤ m := by
    have := congrArg List.length hst
    simp [List.length_take] at this
    omega
  have hsm : s ++ M <+: (l.drop a).take m := ⟨t, hst⟩
  have hsm2 : s ++ M <+: l.drop a := hsm.trans (List.take_prefix m (l.drop a))
  obtain ⟨u, hu⟩ := hsm2
  refine ⟨a + s.length, Nat.le_add_right a s.length, by omega, u, ?_⟩
  have hd : (l.drop a).drop s.length = M ++ u := by
    rw [← hu, List.append_assoc, List.drop_left]
  rw [List.drop_drop] at hd
  exact hd.symm

/-! ## Block marker-freedom and the build invariant -/

theorem removeMarkersF_id :
    ∀ (f : Nat) (l : List Char), l.length ≤ f →
      (∀ k, ¬ markerC k <:+: l) → removeMarkersF f l = l := by
  intro f
  induction f with
  | zero =>
    intro l hf _
    have : l = [] := List.eq_nil_of_length_eq_zero (Nat.le_zero.mp hf)
    subst this
    rfl
  | succ f ih =>
    intro l hf hfree
    cases l with
    | nil => rfl
    | cons c cs =>
      rw [removeMarkersF]
      cases hm : markerAt (c :: cs) with
      | some k =>
        exact absurd (List.IsPrefix.isInfix ( markerAt_some_prefix hm)) (hfree k)
      | none =>
        have hcs : ∀ k, ¬ markerC k <:+: cs := fun k hk =>
          hfree k (infix_of_infix_cons hk)
        have hlen : cs.length ≤ f := by simp at hf; omega
        rw [ih cs hlen hcs]

theorem jsTrimRight_prefix (l : List Char) : jsTrimRight l <+: l := by
  unfold jsTrimRight
  have h : (l.reverse.dropWhile isJsSpace) <:+ l.reverse := List.dropWhile_suffix isJsSpace
  have := List.reverse_prefix.mpr h
  simpa using this

theorem jsTrimCore_infix (l : List Char) : jsTrimCore l <:+: l := by
  unfold jsTrimCore
  have h1 : jsTrimRight (l.dropWhile isJsSpace) <+: l.dropWhile isJsSpace :=
    jsTrimRight_prefix _
  have h2 : l.dropWhile isJsSpace <:+ l := List.dropWhile_suffix isJsSpace
  exact List.IsPrefix.isInfix h1 |>.trans (List.IsSuffix.isInfix h2)

theorem markerFree_of_infix {x y : List Char} (hxy : x <:+: y)
    (hy : ∀ k, ¬ markerC k <:+: y) : ∀ k, ¬ markerC k <:+: x :=
  fun k hk => hy k (hk.trans hxy)

theorem markerFree_nil : ∀ k, ¬ markerC k <:+: ([] : List Char) := by
  intro k h
  have := List.eq_nil_of_infix_nil h
  exact markerC_ne_nil k this

theorem sectionGet_set_same (secs : Sections) (k : Key) (v : String) :
    sectionGet (sectionSet secs k v) k = v := by
  cases k <;> rfl

theorem sectionGet_set_other (secs : Sections) (k k' : Key) (v : String)
    (h : ¬ k' = k) : sectionGet (sectionSet secs k v) k' = sectionGet secs k' := by
  cases k <;> cases k' <;> first | rfl | exact absurd rfl h

theorem appendUnique_markerFree {secs : Sections} {k0 : Key} {block : List Char}
    (hblock : ∀ k', ¬ markerC k' <:+: block)
    (hsecs : ∀ k k', ¬ markerC k' <:+: (sectionGet secs k).data) :
    ∀ k k', ¬ markerC k' <:+: (sectionGet (appendUnique k0 block secs) k).data := by
  intro k k'
  have hrm : removeMarkers block = block :=
    removeMarkersF_id block.length block le_rfl hblock
  have hclean : ∀ k2, ¬ markerC k2 <:+: jsTrimCore (removeMarkers block) := by
    rw [hrm]
    exact markerFree_of_infix ( jsTrimCore_infix block) hblock
  simp only [appendUnique]
  split_ifs with h1 h2 h3
  · exact hsecs k k'
  · exact hsecs k k'
  · by_cases hk : k = k0
    · subst hk
      rw [sectionGet_set_same]
      exact hclean k'
    · rw [sectionGet_set_other _ _ _ _ hk]
      exact hsecs k k'
  · by_cases hk : k = k0
    · subst hk
      rw [sectionGet_set_same]
      exact markerFree_append_sep (fun k2 => hsecs k k2) hclean k'
    · rw [sectionGet_set_other _ _ _ _ hk]
      exact hsecs k k'

theorem block_markerFree {l : List Char} {p : Nat} {k0 : Key}
    {rest : List (Nat × Key)}
    (hsuf : (p, k0) :: rest <:+ scanMarkers l) :
    ∀ k', ¬ markerC k' <:+:
      (l.drop (p + (markerC k0).length)).take
        (nextIndex l rest - (p + (markerC k0).length)) := by
  intro k' h
  have hpw : (scanMarkers l).Pairwise
      (fun a b => a.1 + (markerC a.2).length ≤ b.1) := scanF_pairwise l.length l
  have hple : p + (markerC k0).length ≤ nextIndex l rest := by
    cases rest with
    | nil =>
      have hq : nextIndex l [] = l.length := rfl
      have hmem : (p, k0) ∈ scanMarkers l :=
        hsuf.subset (List.mem_cons_self _ _)
      have hp := scanF_sound l.length l p k0 hmem
      have h1 := hp.length_le
      have h2 := markerC_length_pos k0
      rw [List.length_drop] at h1
      omega
    | cons e2 rest' =>
      obtain ⟨q, k1⟩ := e2
      have hq : nextIndex l ((q, k1) :: rest') = q := rfl
      have hsub := hpw.sublist hsuf.sublist
      have h3 := (List.pairwise_cons.mp hsub).1 (q, k1) (List.mem_cons_self _ _)
      simp only [] at h3
      omega
  obtain ⟨r, hr1, hr2, hr3⟩ := infix_slice h
  have hr2' : r + (markerC k').length ≤ nextIndex l rest := by omega
  have hmem : (r, k') ∈ scanMarkers l := scanF_complete l.length l r k' le_rfl hr3
  obtain ⟨pre, hpre⟩ := hsuf
  rw [← hpre] at hpw hmem
  have hlk' := markerC_length_pos k'
  have hlk0 := markerC_length_pos k0
  rcases List.mem_append.mp hmem with hm | hm
  · have h4 := (List.pairwise_append.mp hpw).2.2 _ hm _ (List.mem_cons_self _ _)
    simp only [] at h4
    omega
  · rcases List.mem_cons.mp hm with he | hm2
    · injection he with he1 he2
      omega
    · cases rest with
      | nil => exact absurd hm2 (List.not_mem_nil _)
      | cons e2 rest' =>
        obtain ⟨q, k1⟩ := e2
        have hq : nextIndex l ((q, k1) :: rest') = q := rfl
        rcases List.mem_cons.mp hm2 with he2 | hm3
        · injection he2 with he1 he2
          omega
        · have hpw2 := (List.pairwise_append.mp hpw).2.1
          have h5 := (List.pairwise_cons.mp (List.pairwise_cons.mp hpw2).2).1 _ hm3
          simp only [] at h5
          omega

theorem buildSections_cons (l : List Char) (p : Nat) (k0 : Key)
    (rest : List (Nat × Key)) (secs : Sections) :
    buildSections l ((p, k0) :: rest) secs =
      buildSections l rest (appendUnique k0
        ((l.drop (p + (markerC k0).length)).take
          (nextIndex l rest - (p + (markerC k0).length))) secs) := rfl

set_option maxHeartbeats 1000000 in
theorem buildSections_markerFree :
    ∀ (ms : List (Nat × Key)) (l : List Char) (secs : Sections),
      ms <:+ scanMarkers l →
      (∀ k k', ¬ markerC k' <:+: (sectionGet secs k).data) →
      ∀ k k', ¬ markerC k' <:+: (sectionGet (buildSections l ms secs) k).data := by
  intro ms
  induction ms with
  | nil =>
    intro l secs _ hsecs k k'
    exact hsecs k k'
  | cons e rest ih =>
    obtain ⟨p, k0⟩ := e
    intro l secs hsuf hsecs k k'
    rw [buildSections_cons]
    have hrest : rest <:+ scanMarkers l :=
      (List.suffix_cons (p, k0) rest).trans hsuf
    exact ih l _ hrest
      (appendUnique_markerFree (block_markerFree hsuf) hsecs) k k'

/-! ## Shift lemmas (dropping the preamble before the first match) -/

theorem scanF_fuel :
    ∀ (f g : Nat) (l : List Char), l.length ≤ f → l.length ≤ g →
      scanF f l = scanF g l := by
  intro f
  induction f with
  | zero =>
    intro g l hf _
    have : l = [] := List.eq_nil_of_length_eq_zero (Nat.le_zero.mp hf)
    subst this
    cases g <;> rfl
  | succ f ih =>
    intro g l hf hg
    cases l with
    | nil => cases g <;> rfl
    | cons c cs =>
      cases g with
      | zero => simp at hg
      | succ g' =>
        rw [List.length_cons] at hf hg
        cases hm : markerAt (c :: cs) with
        | some k =>
          have hlp := markerC_length_pos k
          have hb1 : ((c :: cs).drop (markerC k).length).length ≤ f := by
            rw [List.length_drop, List.length_cons]
            omega
          have hb2 : ((c :: cs).drop (markerC k).length).length ≤ g' := by
            rw [List.length_drop, List.length_cons]
            omega
          simp only [scanF, hm]
          rw [ih g' _ hb1 hb2]
        | none =>
          have hb1 : cs.length ≤ f := by omega
          have hb2 : cs.length ≤ g' := by omega
          simp only [scanF, hm]
          rw [ih g' cs hb1 hb2]

theorem scanMarkers_cons_none {c : Char} {cs : List Char}
    (hm : markerAt (c :: cs) = none) :
    scanMarkers (c :: cs) = (scanMarkers cs).map (fun q => (q.1 + 1, q.2)) := by
  rw [scanMarkers, scanMarkers]
  have : (c :: cs).length = cs.length + 1 := List.length_cons c cs
  rw [this, scanF, hm]

theorem scanMarkers_shift :
    ∀ (j : Nat) (l : List Char),
      (∀ r k, r < j → ¬ markerC k <+: l.drop r) →
      scanMarkers l = (scanMarkers (l.drop j)).map (fun q => (q.1 + j, q.2)) := by
  intro j
  induction j with
  | zero =>
    intro l _
    rw [List.drop_zero]
    have hfe : (fun q : Nat × Key => (q.1 + 0, q.2)) = id := by
      funext q
      simp
    rw [hfe, List.map_id]
  | succ j ih =>
    intro l hno
    cases l with
    | nil => rfl
    | cons c cs =>
      have hm : markerAt (c :: cs) = none := by
        cases he : markerAt (c :: cs) with
        | none => rfl
        | some k =>
          exact absurd (by simpa using markerAt_some_prefix he)
            (hno 0 k (Nat.succ_pos j))
      have h2 := ih cs (fun r k hr => by
        have := hno (r + 1) k (Nat.succ_lt_succ hr)
        rwa [List.drop_succ_cons] at this)
      rw [scanMarkers_cons_none hm, h2, List.map_map, List.drop_succ_cons]
      refine List.map_congr_left ?_
      intro q _
      simp [Function.comp, Nat.add_assoc]

theorem buildSections_shift :
    ∀ (X : List (Nat × Key)) (l : List Char) (j : Nat) (secs : Sections),
      buildSections l (X.map (fun q => (q.1 + j, q.2))) secs =
        buildSections (l.drop j) X secs := by
  intro X
  induction X with
  | nil => intro l j secs; rfl
  | cons e X' ih =>
    obtain ⟨p0, k0⟩ := e
    intro l j secs
    cases X' with
    | nil =>
      simp only [List.map_cons, List.map_nil]
      conv_lhs => rw [buildSections_cons]
      conv_rhs => rw [buildSections_cons]
      simp only [nextIndex]
      rw [List.drop_drop, List.length_drop]
      have h2 : l.length - (p0 + j + (markerC k0).length) =
          l.length - j - (p0 + (markerC k0).length) := by omega
      have h1 : p0 + j + (markerC k0).length = j + (p0 + (markerC k0).length) := by
        omega
      rw [h2, h1]
      rfl
    | cons e2 X'' =>
      obtain ⟨q, k1⟩ := e2
      simp only [List.map_cons]
      conv_lhs => rw [buildSections_cons]
      conv_rhs => rw [buildSections_cons]
      simp only [nextIndex]
      rw [List.drop_drop]
      have h2 : q + j - (p0 + j + (markerC k0).length) =
          q - (p0 + (markerC k0).length) := by omega
      have h1 : p0 + j + (markerC k0).length = j + (p0 + (markerC k0).length) := by
        omega
      rw [h2, h1]
      exact ih l j _

/-! ## C5 — preamble handling in `extractSections` -/

/-- C5 (counterexample): with markers present, the text before the
first marker does NOT appear in the parsed EXPLANATION output — it is
discarded: parsing `"Intro[TECHNICAL_DEFINITION]A"` leaves EXPLANATION
empty and `"Intro"` appears in no section. -/
theorem c5_preamble_not_in_explanation :
    (extractSections "Intro[TECHNICAL_DEFINITION]A").EXPLANATION = "" ∧
    (extractSections "Intro[TECHNICAL_DEFINITION]A").TECHNICAL_DEFINITION = "A" ∧
    containsSub (extractSections "Intro[TECHNICAL_DEFINITION]A").TECHNICAL_DEFINITION.data
      ("Intro").data = false ∧
    containsSub (extractSections "Intro[TECHNICAL_DEFINITION]A").EXPLANATION.data
      ("Intro").data = false ∧
    containsSub (extractSections "Intro[TECHNICAL_DEFINITION]A").EXAMPLES.data
      ("Intro").data = false ∧
    containsSub (extractSections "Intro[TECHNICAL_DEFINITION]A").FLOW_DIAGRAM.data
      ("Intro").data = false := by
  refine ⟨by decide, by decide, by decide, by decide, by decide, by decide⟩

/-- C5 (amended): when no markers exist at all, the entire trimmed text
is assigned wholesale to EXPLANATION; when markers are present, the
text preceding the first marker is discarded — the parse result equals
that of the document with the preamble removed. -/
theorem c5_sections_preamble :
    (∀ s : String, scanMarkers s.data = [] →
      extractSections s = ⟨"", jsTrim s, "", ""⟩) ∧
    (∀ (s : String) (p : Nat) (k : Key) (rest : List (Nat × Key)),
      scanMarkers s.data = (p, k) :: rest →
      extractSections s = extractSections ⟨s.data.drop p⟩) := by
  constructor
  · intro s hms
    simp [extractSections, hms]
  · intro s p k rest hms
    have hno : ∀ r k2, r < p → ¬ markerC k2 <+: s.data.drop r := by
      intro r k2 hr hp
      have hmem : (r, k2) ∈ scanMarkers s.data :=
        scanF_complete s.data.length s.data r k2 le_rfl hp
      rw [hms] at hmem
      rcases List.mem_cons.mp hmem with he | hm
      · injection he with he1 he2
        omega
      · have hpw : (scanMarkers s.data).Pairwise
            (fun a b => a.1 + (markerC a.2).length ≤ b.1) :=
          scanF_pairwise s.data.length s.data
        rw [hms] at hpw
        have h3 := (List.pairwise_cons.mp hpw).1 _ hm
        simp only [] at h3
        have h4 := markerC_length_pos k
        omega
    have hshift := scanMarkers_shift p s.data hno
    have hdata : (⟨s.data.drop p⟩ : String).data = s.data.drop p := rfl
    rw [hms] at hshift
    cases hX : scanMarkers (s.data.drop p) with
    | nil =>
      rw [hX] at hshift
      simp at hshift
    | cons e X' =>
      rw [hX] at hshift
      simp only [extractSections, hdata, hms, hX]
      simp only [List.cons_ne_nil, if_false, ite_false]
      rw [hshift]
      exact buildSections_shift (e :: X') s.data p ⟨"", "", "", ""⟩

/-- C5 (witness): the two amended clauses at concrete documents.  The
second shows `extractSections "Intro[EXPLANATION]B"` equals the parse
of the same text with the 5-character preamble dropped. -/
theorem c5_sections_preamble_witness :
    extractSections "hello world" = ⟨"", jsTrim "hello world", "", ""⟩ ∧
    extractSections "Intro[EXPLANATION]B" =
      extractSections ⟨("Intro[EXPLANATION]B").data.drop 5⟩ := by
  refine ⟨c5_sections_preamble.1 "hello world" (by decide),
    c5_sections_preamble.2 "Intro[EXPLANATION]B" 5 Key.EXPLANATION [] (by decide)⟩

/-! ## C10 — section record shape and marker absence -/

/-- C10: `extractSections` returns a `Sections` record — exactly the
four keys `TECHNICAL_DEFINITION`, `EXPLANATION`, `EXAMPLES`,
`FLOW_DIAGRAM`, which its type carries — and for every input string no
returned section value contains an occurrence of any of the four
bracketed markers. -/
theorem c10_sections_marker_free :
    ∀ (s : String) (k k' : Key),
      ¬ ((markerString k').data <:+: (sectionGet (extractSections s) k).data) := by
  intro s k k'
  cases hms : scanMarkers s.data with
  | nil =>
    have hfree : ∀ k2, ¬ markerC k2 <:+: s.data := by
      intro k2 hinf
      obtain ⟨pp, hp⟩ := infix_iff_exists_drop.mp hinf
      have hmem : (pp, k2) ∈ scanMarkers s.data :=
        scanF_complete s.data.length s.data pp k2 le_rfl hp
      rw [hms] at hmem
      exact absurd hmem (List.not_mem_nil _)
    have hres : extractSections s = ⟨"", jsTrim s, "", ""⟩ := by
      simp [extractSections, hms]
    rw [hres]
    cases k with
    | TECHNICAL_DEFINITION => exact markerFree_nil k'
    | EXPLANATION => exact markerFree_of_infix ( jsTrimCore_infix s.data) hfree k'
    | EXAMPLES => exact markerFree_nil k'
    | FLOW_DIAGRAM => exact markerFree_nil k'
  | cons e rest =>
    have hres : extractSections s = buildSections s.data (e :: rest) ⟨"", "", "", ""⟩ := by
      simp [extractSections, hms]
    rw [hres]
    refine buildSections_markerFree (e :: rest) s.data ⟨"", "", "", ""⟩ ?_ ?_ k k'
    · rw [hms]
    · intro k2 k3
      cases k2 <;> exact markerFree_nil k3

/-! ## C1 — AnsweringMode chunk gate -/

/-- C1 (counterexample): in the current `App.tsx` handler, a chunk
received while AnsweringMode is active and no answer is in progress is
NOT dropped — the accumulated answer text changes (a blank line plus
the chunk is appended) and a new response item is published. -/
theorem c1_apptsx_chunk_not_dropped :
    (onmessage 5 chunkHelloMsg answeringIdleState).streamingText = "Old\n\nHello" ∧
    (onmessage 5 chunkHelloMsg answeringIdleState).streamingText ≠
      answeringIdleState.streamingText ∧
    (onmessage 5 chunkHelloMsg answeringIdleState).activeResponse ≠
      answeringIdleState.activeResponse := by
  refine ⟨by decide, by decide, by decide⟩

/-- C1 (amended): the dropping behaviour holds in the
`src/unnamed/part_001` variant of the handler: there, a generated-text
chunk arriving while AnsweringMode is active and no response is in
progress is dropped and the whole state is unchanged. -/
theorem c1_variant_chunk_dropped (now : Nat) (msg : Variant.VMessage) (s : Variant.VState)
    (h1 : msg.inputTranscription = none) (h2 : s.isUserAnswering = true)
    (h3 : s.responseInProgress = false) (h4 : Variant.vComputeTextChunk msg ≠ "") :
    Variant.vOnmessage now msg s = s := by
  simp only [Variant.vOnmessage, h1, h2, h3]
  simp [h4]

/-- C1 (witness): the variant gate at a concrete state and message. -/
theorem c1_variant_chunk_dropped_witness :
    Variant.vOnmessage 3 vChunkMsg vAnsweringIdleState = vAnsweringIdleState :=
  c1_variant_chunk_dropped 3 vChunkMsg vAnsweringIdleState rfl rfl rfl (by decide)

/-! ## C2 — AnsweringMode exit reset -/

/-- C2 (code bug): leaving AnsweringMode does not complete normally.
After clearing the question display, the response item, the
accumulators, and the streaming text, the exit branch assigns to the
undeclared identifier `currentTurnTextRef` and throws a
`ReferenceError`; the answer-in-progress flag and the turn-complete
flag are left un-reset. -/
theorem c2_toggle_exit_throws :
    (toggleAnsweringMode answeringBusyState).2 =
      some (JsError.referenceError "currentTurnTextRef") ∧
    (toggleAnsweringMode answeringBusyState).1.responseInProgress = true ∧
    (toggleAnsweringMode answeringBusyState).1.lastTurnWasComplete = false ∧
    (toggleAnsweringMode answeringBusyState).1.isUserAnswering = false ∧
    (toggleAnsweringMode answeringBusyState).1.currentQuestion = "" ∧
    (toggleAnsweringMode answeringBusyState).1.activeResponse = none ∧
    (toggleAnsweringMode answeringBusyState).1.questionAccumulator = "" ∧
    (toggleAnsweringMode answeringBusyState).1.currentQuestionRef = "" ∧
    (toggleAnsweringMode answeringBusyState).1.streamingText = "" := by
  decide

/-! ## C3 — locked-topic persistence -/

/-- C3 (counterexample): a single accepted transcription fragment by
itself replaces a non-empty locked topic: `"What is caching?"` becomes
`"Hello"` after one fragment, with no turn completion and no mode
toggle involved. -/
theorem c3_fragment_replaces_topic :
    lockedTopicState.lockedTopic = "What is caching?" ∧
    (onmessage 0 fragmentHelloMsg lockedTopicState).lockedTopic = "Hello" ∧
    (onmessage 0 fragmentHelloMsg lockedTopicState).lockedTopic ≠
      lockedTopicState.lockedTopic := by
  refine ⟨rfl, by decide, by decide⟩

/-- C3 (amended): the locked topic is preserved by generated-text
processing and by `stopSession`; it is replaced on turn completion by
the current question when that is non-empty; and additionally every
accepted transcription fragment replaces it with the updated question
accumulator. -/
theorem c3_lockedTopic_amended :
    (∀ (now : Nat) (msg : LiveServerMessage) (s : AppState) (t : String),
      msg.inputTranscription = some t → s.isUserAnswering = false → t ≠ "" →
      isEnglishLike t = true → msg.turnComplete = false →
      (onmessage now msg s).lockedTopic =
        (if s.lastTurnWasComplete then "" else s.questionAccumulator) ++ t) ∧
    (∀ (now : Nat) (msg : LiveServerMessage) (s : AppState),
      msg.inputTranscription = none → msg.turnComplete = false →
      (onmessage now msg s).lockedTopic = s.lockedTopic) ∧
    (∀ (now : Nat) (msg : LiveServerMessage) (s : AppState),
      msg.inputTranscription = none → computeTextChunk msg = "" →
      msg.turnComplete = true →
      (onmessage now msg s).lockedTopic =
        (if s.currentQuestionRef ≠ "" then s.currentQuestionRef else s.lockedTopic)) ∧
    (∀ (opts : Option StopOpts) (s : AppState),
      (stopSession opts s).1.lockedTopic = s.lockedTopic) := by
  refine ⟨?_, ?_, ?_, ?_⟩
  · intro now msg s t h1 h2 ht he hc
    simp only [onmessage, handleTranscription, handleChunk, handleTurnComplete,
      h1, h2, ht, he, hc]
    simp only [Bool.false_eq_true, if_false, if_neg, not_true_eq_false, ite_false]
    by_cases h5 : s.lastTurnWasComplete <;>
      by_cases h6 : computeTextChunk msg = "" <;>
      by_cases h7 : sanitizeModelOutput (computeTextChunk msg) = "" <;>
      simp [h5, h6, h7]
  · intro now msg s h1 hc
    simp only [onmessage, handleTranscription, handleChunk, handleTurnComplete, h1, hc]
    by_cases h6 : computeTextChunk msg = "" <;>
      by_cases h7 : sanitizeModelOutput (computeTextChunk msg) = "" <;>
      simp [h6, h7]
  · intro now msg s h1 h6 hc
    simp [onmessage, handleTranscription, handleChunk, handleTurnComplete, h1, h6, hc]
  · intro opts s
    by_cases h : s.isStopping <;>
      by_cases h5 : (opts.bind (fun o => o.error)).isSome <;>
      simp [stopSession, h, h5]

/-- C3 (witness): the four amended clauses at concrete inputs. -/
theorem c3_lockedTopic_amended_witness :
    (onmessage 0 fragmentHelloMsg lockedTopicState).lockedTopic =
      (if lockedTopicState.lastTurnWasComplete then ""
       else lockedTopicState.questionAccumulator) ++ "Hello" ∧
    (onmessage 5 chunkHelloMsg lockedTopicState).lockedTopic =
      lockedTopicState.lockedTopic ∧
    (onmessage 0 (⟨none, none, none, none, true⟩ : LiveServerMessage)
        lockedTopicState).lockedTopic =
      (if lockedTopicState.currentQuestionRef ≠ "" then lockedTopicState.currentQuestionRef
       else lockedTopicState.lockedTopic) ∧
    (stopSession none activeSessionState).1.lockedTopic =
      activeSessionState.lockedTopic := by
  refine ⟨c3_lockedTopic_amended.1 0 fragmentHelloMsg lockedTopicState "Hello" rfl rfl
      (by decide) (by decide) rfl,
    c3_lockedTopic_amended.2.1 5 chunkHelloMsg lockedTopicState rfl rfl,
    c3_lockedTopic_amended.2.2.1 0 _ lockedTopicState rfl (by decide) rfl,
    c3_lockedTopic_amended.2.2.2 none activeSessionState⟩

/-! ## C4 — `appendChunkWithSpacing` equations -/

/-- C4 (counterexample): the first specified equation fails on the
code: `"end."` ends in `'.'`, which the boundary class `[A-Za-z0-9)]`
rejects, so no space is inserted. -/
theorem c4_end_next_no_space :
    appendChunkWithSpacing "end." "Next" ≠ "end. Next" := by decide

/-- C4 (amended): `appendChunkWithSpacing("end.", "Next")` returns
`"end.Next"` (no space after a period boundary); the two empty-side
equations hold as specified. -/
theorem c4_spacing_equations :
    appendChunkWithSpacing "end." "Next" = "end.Next" ∧
    appendChunkWithSpacing "foo" "" = "foo" ∧
    appendChunkWithSpacing "" "bar" = "bar" := by
  refine ⟨by decide, by decide, by decide⟩

/-! ## C6 — `stopSession` idempotence -/

/-- C6: a `stopSession` call re-entering while a stop is in flight is a
no-op (latch guard), and for a fresh call the session becomes inactive,
an immediately following second call changes nothing and releases
nothing, and no resource is released twice in the first call's log. -/
theorem c6_stop_idempotent :
    (∀ (opts : Option StopOpts) (s : AppState), s.isStopping = true →
      stopSession opts s = (s, [])) ∧
    (∀ s : AppState, s.isStopping = false →
      (stopSession none s).1.sessionState.isActive = false ∧
      (stopSession none s).1.sessionState.isConnecting = false ∧
      stopSession none (stopSession none s).1 = ((stopSession none s).1, []) ∧
      ((stopSession none s).2).Nodup) := by
  constructor
  · intro opts s h
    simp [stopSession, h]
  · intro s h
    cases h1 : s.hasScriptProcessor <;> cases h2 : s.hasSession <;>
      cases h3 : s.hasMicStream <;> cases h4 : s.hasAudioContext <;>
      simp [stopSession, h, h1, h2, h3, h4]

/-- C6 (witness): the latch guard and the double-stop behaviour at
concrete states. -/
theorem c6_stop_idempotent_witness :
    stopSession none stoppingState = (stoppingState, []) ∧
    (stopSession none activeSessionState).1.sessionState.isActive = false ∧
    stopSession none (stopSession none activeSessionState).1 =
      ((stopSession none activeSessionState).1, []) ∧
    ((stopSession none activeSessionState).2).Nodup := by
  refine ⟨c6_stop_idempotent.1 none stoppingState rfl,
    (c6_stop_idempotent.2 activeSessionState rfl).1,
    (c6_stop_idempotent.2 activeSessionState rfl).2.2.1,
    (c6_stop_idempotent.2 activeSessionState rfl).2.2.2⟩

/-! ## C7 — non-ASCII fragment handling -/

/-- C7 (counterexample): while AnsweringMode is active, a non-ASCII
fragment is ignored entirely — the state is unchanged and the warning
is NOT shown, contradicting the unconditional claim. -/
theorem c7_nonascii_ignored_in_answering :
    (onmessage 0 fragmentCafeMsg
        { baseAppState with isUserAnswering := true }) =
      { baseAppState with isUserAnswering := true } ∧
    (onmessage 0 fragmentCafeMsg
        { baseAppState with isUserAnswering := true }).currentQuestion ≠
      englishWarning := by
  refine ⟨by decide, by decide⟩

/-- C7 (amended): while AnsweringMode is inactive, a transcription
fragment containing a character outside U+0000–U+007F leaves the whole
state unchanged except for the displayed question, which becomes the
fixed warning; in particular the question accumulator and the session
lifecycle state are untouched and the session is not terminated. -/
theorem c7_nonascii_warning (now : Nat) (msg : LiveServerMessage) (s : AppState)
    (t : String) (h1 : msg.inputTranscription = some t)
    (h2 : isEnglishLike t = false) (h3 : s.isUserAnswering = false) :
    onmessage now msg s = { s with currentQuestion := englishWarning } := by
  have ht : t ≠ "" := by
    intro he
    rw [he] at h2
    exact absurd h2 (by decide)
  simp [onmessage, handleTranscription, h1, h2, h3, ht]

/-- C7 (witness): a concrete non-ASCII fragment (arriving together with
a chunk and a turn-complete flag, both of which the early return
skips). -/
theorem c7_nonascii_warning_witness :
    onmessage 1 fragmentCafeFullMsg listeningState =
      { listeningState with currentQuestion := englishWarning } :=
  c7_nonascii_warning 1 fragmentCafeFullMsg listeningState "café" rfl (by decide) rfl

/-! ## C8 — paragraph dedup example -/

/-- C8: on the two-paragraph example only the first paragraph is kept;
the second is a near duplicate both by normalized substring containment
and by sharing at least 80 % (here 100 %) of the smaller paragraph's
distinct tokens. -/
theorem c8_dedupe_drops_second :
    dedupeTechnicalDefinition "Caching stores data.\n\nCaching stores data for reuse." =
      "Caching stores data." ∧
    containsSub (normalizeForCompare "Caching stores data for reuse.").data
      (normalizeForCompare "Caching stores data.").data = true ∧
    5 * ((tokenSet (normalizeForCompare "Caching stores data.").data).filter
        (fun t => (tokenSet
          (normalizeForCompare "Caching stores data for reuse.").data).contains t)).length ≥
      4 * max 1 (min (tokenSet (normalizeForCompare "Caching stores data.").data).length
        (tokenSet (normalizeForCompare "Caching stores data for reuse.").data).length) ∧
    isNearDuplicate "Caching stores data." "Caching stores data for reuse." = true := by
  refine ⟨by decide, by decide, by decide, by decide⟩

/-! ## Split/join lemmas (for the sanitizer idempotence claim) -/

theorem split_ne_nil (sep : Char) (l : List Char) : splitOnChar sep l ≠ [] := by
  cases l with
  | nil => simp [splitOnChar]
  | cons c cs =>
    rw [splitOnChar]
    split_ifs
    · simp
    · cases h : splitOnChar sep cs <;> simp

theorem split_cons_sep (sep : Char) (cs : List Char) :
    splitOnChar sep (sep :: cs) = [] :: splitOnChar sep cs := by
  rw [splitOnChar]
  simp

theorem split_cons_ne (sep c : Char) (cs : List Char) (h : ¬ c = sep) :
    ∃ hd tl, splitOnChar sep cs = hd :: tl ∧
      splitOnChar sep (c :: cs) = (c :: hd) :: tl := by
  cases he : splitOnChar sep cs with
  | nil => exact absurd he (split_ne_nil sep cs)
  | cons hd tl =>
    refine ⟨hd, tl, rfl, ?_⟩
    rw [splitOnChar, if_neg h, he]

theorem join_split (sep : Char) (l : List Char) :
    joinChar sep (splitOnChar sep l) = l := by
  induction l with
  | nil => rfl
  | cons c cs ih =>
    by_cases h : c = sep
    · subst h
      rw [split_cons_sep]
      cases he : splitOnChar c cs with
      | nil => exact absurd he (split_ne_nil c cs)
      | cons hd tl =>
        rw [joinChar]
        rw [he] at ih
        rw [ih]
        rfl
    · obtain ⟨hd, tl, he, he2⟩ := split_cons_ne sep c cs h
      rw [he2]
      rw [he] at ih
      cases tl with
      | nil =>
        rw [joinChar]
        rw [joinChar] at ih
        rw [ih]
      | cons t1 ts =>
        rw [joinChar]
        rw [joinChar] at ih
        rw [List.cons_append, ih]

theorem mem_split_no_sep (sep : Char) (l : List Char) :
    ∀ m ∈ splitOnChar sep l, sep ∉ m := by
  induction l with
  | nil =>
    intro m hm
    simp [splitOnChar] at hm
    simp [hm]
  | cons c cs ih =>
    intro m hm
    by_cases h : c = sep
    · subst h
      rw [split_cons_sep] at hm
      rcases List.mem_cons.mp hm with he | hm2
      · simp [he]
      · exact ih m hm2
    · obtain ⟨hd, tl, he, he2⟩ := split_cons_ne sep c cs h
      rw [he2] at hm
      rcases List.mem_cons.mp hm with he3 | hm2
      · subst he3
        intro hmem
        rcases List.mem_cons.mp hmem with he4 | hm3
        · exact h he4.symm
        · exact ih hd (he ▸ List.mem_cons_self hd tl) hm3
      · exact ih m (he ▸ List.mem_cons.mpr (Or.inr hm2))

theorem split_of_no_sep (sep : Char) (x : List Char) (h : sep ∉ x) :
    splitOnChar sep x = [x] := by
  induction x with
  | nil => rfl
  | cons c cs ih =>
    have hc : ¬ c = sep := fun he => h (he ▸ List.mem_cons_self c cs)
    obtain ⟨hd, tl, he, he2⟩ := split_cons_ne sep c cs hc
    have hcs : sep ∉ cs := fun hm => h (List.mem_cons.mpr (Or.inr hm))
    rw [ih hcs] at he
    injection he with h1 h2
    rw [he2, h1, h2]

theorem split_append_sep (sep : Char) (x r : List Char) (h : sep ∉ x) :
    splitOnChar sep (x ++ sep :: r) = x :: splitOnChar sep r := by
  induction x with
  | nil =>
    rw [List.nil_append, split_cons_sep]
  | cons c cs ih =>
    have hc : ¬ c = sep := fun he => h (he ▸ List.mem_cons_self c cs)
    have hcs : sep ∉ cs := fun hm => h (List.mem_cons.mpr (Or.inr hm))
    rw [List.cons_append]
    obtain ⟨hd, tl, he, he2⟩ := split_cons_ne sep c (cs ++ sep :: r) hc
    rw [ih hcs] at he
    injection he with h1 h2
    rw [he2, h1, h2]

theorem split_join (sep : Char) (L : List (List Char)) (hne : L ≠ [])
    (hsep : ∀ m ∈ L, sep ∉ m) :
    splitOnChar sep (joinChar sep L) = L := by
  induction L with
  | nil => exact absurd rfl hne
  | cons x t ih =>
    cases t with
    | nil =>
      rw [joinChar]
      exact split_of_no_sep sep x (hsep x (List.mem_cons_self x []))
    | cons y ts =>
      rw [joinChar]
      rw [split_append_sep sep x _ (hsep x (List.mem_cons_self _ _))]
      rw [ih (by simp) (fun m hm => hsep m (List.mem_cons.mpr (Or.inr hm)))]

theorem getLastD_of_ne_nil {l : List (List Char)} (h : l ≠ []) (d d' : List Char) :
    l.getLastD d = l.getLastD d' := by
  cases l with
  | nil => exact absurd rfl h
  | cons a t =>
    rw [List.getLastD_eq_getLast?, List.getLastD_eq_getLast?]
    cases hq : (a :: t).getLast? with
    | none => simp at hq
    | some x => rfl

theorem split_concat (sep c : Char) (l : List Char) :
    splitOnChar sep (l ++ [c]) =
      if c = sep then splitOnChar sep l ++ [[]]
      else (splitOnChar sep l).dropLast ++
        [((splitOnChar sep l).getLastD []) ++ [c]] := by
  induction l with
  | nil =>
    by_cases h : c = sep
    · subst h
      rw [if_pos rfl, List.nil_append, split_cons_sep]
      rfl
    · rw [if_neg h, List.nil_append]
      obtain ⟨hd, tl, he, he2⟩ := split_cons_ne sep c [] h
      rw [he2]
      injection he with h1 h2
      subst h1
      subst h2
      rfl
  | cons d ds ih =>
    by_cases hd : d = sep
    · subst hd
      rw [List.cons_append, split_cons_sep, split_cons_sep, ih]
      by_cases h : c = d
      · rw [if_pos h, if_pos h, List.cons_append]
      · rw [if_neg h, if_neg h]
        cases hsd : splitOnChar d ds with
        | nil => exact absurd hsd (split_ne_nil d ds)
        | cons a as =>
          conv_rhs => rw [List.dropLast_cons_of_ne_nil (List.cons_ne_nil a as),
            List.getLastD_cons, List.cons_append]
    · obtain ⟨hd2, tl2, he3, he4⟩ := split_cons_ne sep d ds hd
      obtain ⟨hd1, tl1, he1, he2⟩ := split_cons_ne sep d (ds ++ [c]) hd
      rw [List.cons_append, he2, he4]
      rw [ih, he3] at he1
      by_cases h : c = sep
      · rw [if_pos h] at he1
        rw [if_pos h]
        rw [List.cons_append] at he1
        injection he1 with h1 h2
        subst h1
        subst h2
        rw [List.cons_append]
      · rw [if_neg h] at he1
        rw [if_neg h]
        cases tl2 with
        | nil =>
          simp only [List.dropLast_single, List.nil_append, List.getLastD_cons,
            List.getLastD_nil] at he1
          injection he1 with h1 h2
          subst h1
          subst h2
          simp [List.getLastD_cons]
        | cons u us =>
          rw [List.dropLast_cons_of_ne_nil (List.cons_ne_nil u us),
            List.cons_append] at he1
          injection he1 with h1 h2
          subst h1
          subst h2
          conv_lhs => rw [List.getLastD_cons]
          conv_rhs => rw [List.dropLast_cons_of_ne_nil (List.cons_ne_nil u us),
            List.cons_append, List.getLastD_cons,
            getLastD_of_ne_nil (List.cons_ne_nil u us) (d :: hd2) hd2]

theorem split_reverse (sep : Char) (l : List Char) :
    splitOnChar sep l.reverse = ((splitOnChar sep l).map List.reverse).reverse := by
  induction l with
  | nil => rfl
  | cons c cs ih =>
    rw [List.reverse_cons, split_concat, ih]
    by_cases h : c = sep
    · subst h
      rw [if_pos rfl, split_cons_sep]
      simp
    · rw [if_neg h]
      obtain ⟨hd, tl, he, he2⟩ := split_cons_ne sep c cs h
      rw [he2, he]
      simp only [List.map_cons, List.reverse_cons]
      rw [List.dropLast_concat, List.getLastD_concat]

/-! ## `keepLine` invariance under boundary whitespace -/

theorem keepLine_nil : keepLine [] = true := by decide

theorem jsTrimRight_nil : jsTrimRight [] = [] := rfl

theorem jsTrimRight_concat_space (c : Char) (x : List Char)
    (hc : isJsSpace c = true) : jsTrimRight (x ++ [c]) = jsTrimRight x := by
  unfold jsTrimRight
  rw [List.reverse_append]
  simp only [List.reverse_cons, List.reverse_nil, List.nil_append,
    List.singleton_append]
  rw [List.dropWhile_cons_of_pos hc]

theorem jsTrimCore_cons_space (c : Char) (h : List Char)
    (hc : isJsSpace c = true) : jsTrimCore (c :: h) = jsTrimCore h := by
  unfold jsTrimCore
  rw [List.dropWhile_cons_of_pos hc]

theorem jsTrimCore_concat_space (c : Char) (h : List Char)
    (hc : isJsSpace c = true) : jsTrimCore (h ++ [c]) = jsTrimCore h := by
  unfold jsTrimCore
  rw [List.dropWhile_append]
  cases hw : (h.dropWhile isJsSpace).isEmpty with
  | true =>
    rw [if_pos rfl]
    rw [List.dropWhile_cons_of_pos hc]
    simp only [List.dropWhile_nil]
    rw [List.isEmpty_iff] at hw
    rw [hw]
  | false =>
    rw [if_neg (by simp [hw])]
    exact jsTrimRight_concat_space c _ hc

theorem keepLine_cons_space (c : Char) (h : List Char)
    (hc : isJsSpace c = true) : keepLine (c :: h) = keepLine h := by
  unfold keepLine
  rw [jsTrimCore_cons_space c h hc]

theorem keepLine_concat_space (c : Char) (h : List Char)
    (hc : isJsSpace c = true) : keepLine (h ++ [c]) = keepLine h := by
  unfold keepLine
  rw [jsTrimCore_concat_space c h hc]

theorem head_dropWhile_false (p : Char → Bool) (l : List Char) (c : Char)
    (h : (l.dropWhile p).head? = some c) : p c = false := by
  induction l with
  | nil => simp at h
  | cons a as ih =>
    cases hp : p a with
    | true =>
      rw [List.dropWhile_cons_of_pos hp] at h
      exact ih h
    | false =>
      rw [List.dropWhile_cons_of_neg (by simp [hp])] at h
      injection h with h
      rw [← h]
      exact hp

/-! ## Line preservation through trimming -/

theorem lines_dropWhile_space (P : List Char → Prop)
    (hP : ∀ c h, isJsSpace c = true → (P (c :: h) ↔ P h)) :
    ∀ (x : List Char), (∀ m ∈ splitOnChar '\n' x, P m) →
      ∀ m ∈ splitOnChar '\n' (x.dropWhile isJsSpace), P m := by
  intro x
  induction x with
  | nil =>
    intro hx m hm
    exact hx m hm
  | cons c cs ih =>
    intro hx
    cases hsp : isJsSpace c with
    | false =>
      rw [List.dropWhile_cons_of_neg (by simp [hsp])]
      exact hx
    | true =>
      rw [List.dropWhile_cons_of_pos hsp]
      apply ih
      by_cases hc : c = '\n'
      · subst hc
        intro m hm
        refine hx m ?_
        rw [split_cons_sep]
        exact List.mem_cons.mpr (Or.inr hm)
      · obtain ⟨hd, tl, he, he2⟩ := split_cons_ne '\n' c cs hc
        intro m hm
        rw [he] at hm
        rcases List.mem_cons.mp hm with he3 | hm2
        · subst he3
          refine (hP c m hsp).mp (hx (c :: m) ?_)
          rw [he2]
          exact List.mem_cons_self _ _
        · refine hx m ?_
          rw [he2]
          exact List.mem_cons.mpr (Or.inr hm2)

theorem lines_trimRight_keep (x : List Char)
    (hx : ∀ m ∈ splitOnChar '\n' x, keepLine m = true) :
    ∀ m ∈ splitOnChar '\n' (jsTrimRight x), keepLine m = true := by
  intro m hm
  unfold jsTrimRight at hm
  rw [split_reverse, List.mem_reverse] at hm
  obtain ⟨w, hw, rfl⟩ := List.mem_map.mp hm
  have hrev : ∀ m' ∈ splitOnChar '\n' x.reverse, keepLine m'.reverse = true := by
    intro m' hm'
    rw [split_reverse, List.mem_reverse] at hm'
    obtain ⟨v, hv, rfl⟩ := List.mem_map.mp hm'
    rw [List.reverse_reverse]
    exact hx v hv
  exact lines_dropWhile_space (fun m' => keepLine m'.reverse = true)
    (fun c h hc => by
      simp only [List.reverse_cons, keepLine_concat_space c h.reverse hc])
    x.reverse hrev w hw

theorem lines_trim_keep (x : List Char)
    (hx : ∀ m ∈ splitOnChar '\n' x, keepLine m = true) :
    ∀ m ∈ splitOnChar '\n' (jsTrimCore x), keepLine m = true := by
  unfold jsTrimCore
  exact lines_trimRight_keep _
    (lines_dropWhile_space (fun m => keepLine m = true)
      (fun c h hc => by simp only [keepLine_cons_space c h hc]) x hx)

/-! ## Newline-run collapse lemmas -/

theorem dropWhile_eq_drop (p : Char → Bool) (l : List Char) :
    l.dropWhile p = l.drop (l.takeWhile p).length := by
  induction l with
  | nil => rfl
  | cons c cs ih =>
    cases hp : p c with
    | true =>
      rw [List.dropWhile_cons_of_pos hp, List.takeWhile_cons_of_pos hp,
        List.length_cons, List.drop_succ_cons, ih]
    | false =>
      rw [List.dropWhile_cons_of_neg (by simp [hp]),
        List.takeWhile_cons_of_neg (by simp [hp])]
      rfl

theorem nl_run_decomp (cs : List Char) :
    '\n' :: cs =
      List.replicate (1 + (cs.takeWhile (fun d => d = '\n')).length) '\n' ++
        cs.dropWhile (fun d => d = '\n') := by
  have h1 : cs.takeWhile (fun d => d = '\n') =
      List.replicate (cs.takeWhile (fun d => d = '\n')).length '\n' := by
    apply List.eq_replicate_of_mem
    intro b hb
    have hb2 := List.mem_takeWhile_imp hb
    simpa using hb2
  rw [Nat.add_comm 1 _, List.replicate_succ, List.cons_append, ← h1,
    List.takeWhile_append_dropWhile]

theorem drop_run_eq_dropWhile (cs : List Char) :
    ('\n' :: cs).drop (1 + (cs.takeWhile (fun d => d = '\n')).length) =
      cs.dropWhile (fun d => d = '\n') := by
  rw [Nat.add_comm 1 _, List.drop_succ_cons, ← dropWhile_eq_drop]

theorem take_run_eq_replicate (cs : List Char) :
    ('\n' :: cs).take (1 + (cs.takeWhile (fun d => d = '\n')).length) =
      List.replicate (1 + (cs.takeWhile (fun d => d = '\n')).length) '\n' := by
  conv_lhs => rw [nl_run_decomp cs]
  exact List.take_left' (List.length_replicate _ _)

theorem split_replicate_sep (sep : Char) (k : Nat) (w : List Char) :
    splitOnChar sep (List.replicate k sep ++ w) =
      List.replicate k [] ++ splitOnChar sep w := by
  induction k with
  | zero => simp
  | succ k ih =>
    rw [List.replicate_succ, List.cons_append, split_cons_sep, ih,
      List.replicate_succ, List.cons_append]

theorem collapseNlF_nil (f : Nat) : collapseNlF f [] = [] := by
  cases f <;> rfl

theorem notriple_nil : ¬ (['\n', '\n', '\n'] <:+: ([] : List Char)) := by
  intro h
  have := List.eq_nil_of_infix_nil h
  simp at this

theorem collapse_head_ne_nl (f : Nat) (z : List Char)
    (hz : ∀ a, z.head? = some a → a ≠ '\n') :
    ∀ a, (collapseNlF f z).head? = some a → a ≠ '\n' := by
  intro a ha
  cases f with
  | zero => simp [collapseNlF] at ha
  | succ f =>
    cases z with
    | nil => simp [collapseNlF] at ha
    | cons b bs =>
      have hb : b ≠ '\n' := hz b rfl
      rw [collapseNlF, if_neg hb] at ha
      injection ha with ha
      rw [← ha]
      exact hb

theorem collapseNlF_cons_ne (f : Nat) (c : Char) (cs : List Char) (hc : ¬ c = '\n') :
    collapseNlF (f + 1) (c :: cs) = c :: collapseNlF f cs := by
  rw [collapseNlF, if_neg hc]

theorem collapseNlF_cons_nl (f : Nat) (cs : List Char) :
    collapseNlF (f + 1) ('\n' :: cs) =
      if 3 ≤ 1 + (cs.takeWhile (fun d => d = '\n')).length then
        '\n' :: '\n' :: collapseNlF f (cs.dropWhile (fun d => d = '\n'))
      else
        List.replicate (1 + (cs.takeWhile (fun d => d = '\n')).length) '\n' ++
          collapseNlF f (cs.dropWhile (fun d => d = '\n')) := by
  have h0 : collapseNlF (f + 1) ('\n' :: cs) =
      if 3 ≤ 1 + (cs.takeWhile (fun d => d = '\n')).length then
        '\n' :: '\n' ::
          collapseNlF f
            (('\n' :: cs).drop (1 + (cs.takeWhile (fun d => d = '\n')).length))
      else
        ('\n' :: cs).take (1 + (cs.takeWhile (fun d => d = '\n')).length) ++
          collapseNlF f
            (('\n' :: cs).drop (1 + (cs.takeWhile (fun d => d = '\n')).length)) := rfl
  rw [h0, drop_run_eq_dropWhile, take_run_eq_replicate]

theorem notriple_cons_of_head (R : List Char)
    (hhead : ∀ a, R.head? = some a → a ≠ '\n')
    (hnt : ¬ (['\n', '\n', '\n'] <:+: R)) :
    ¬ (['\n', '\n', '\n'] <:+: '\n' :: R) := by
  intro h
  rcases List.infix_cons_iff.mp h with hpre | hinf
  · obtain ⟨u, hu⟩ := hpre
    rw [List.cons_append] at hu
    injection hu with _ h2
    have hh : R.head? = some '\n' := by
      rw [← h2]
      rfl
    exact hhead '\n' hh rfl
  · exact hnt hinf

theorem notriple_two_cons_of_head (R : List Char)
    (hhead : ∀ a, R.head? = some a → a ≠ '\n')
    (hnt : ¬ (['\n', '\n', '\n'] <:+: R)) :
    ¬ (['\n', '\n', '\n'] <:+: '\n' :: '\n' :: R) := by
  intro h
  rcases List.infix_cons_iff.mp h with hpre | hinf
  · obtain ⟨u, hu⟩ := hpre
    rw [List.cons_append] at hu
    injection hu with _ h2
    rw [List.cons_append] at h2
    injection h2 with _ h3
    have hh : R.head? = some '\n' := by
      rw [← h3]
      rfl
    exact hhead '\n' hh rfl
  · exact notriple_cons_of_head R hhead hnt hinf

/-- No run of three newlines survives the collapse. -/
theorem collapse_noTriple :
    ∀ (f : Nat) (x : List Char), x.length ≤ f →
      ¬ (['\n', '\n', '\n'] <:+: collapseNlF f x) := by
  intro f
  induction f with
  | zero =>
    intro x _ h
    have h0 : collapseNlF 0 x = [] := rfl
    rw [h0] at h
    exact notriple_nil h
  | succ f ih =>
    intro x hx h
    cases x with
    | nil =>
      have h0 : collapseNlF (f + 1) ([] : List Char) = [] := rfl
      rw [h0] at h
      exact notriple_nil h
    | cons c cs =>
      have hcs : cs.length ≤ f := by
        rw [List.length_cons] at hx
        omega
      by_cases hc : c = '\n'
      · subst hc
        have hzhead : ∀ a, (cs.dropWhile (fun d => d = '\n')).head? = some a →
            a ≠ '\n' := by
          intro a ha hne
          have hf := head_dropWhile_false (fun d => d = '\n') cs a ha
          rw [hne] at hf
          simp at hf
        have hzlen : (cs.dropWhile (fun d => d = '\n')).length ≤ f := by
          have hd : (cs.dropWhile (fun d => d = '\n')).length ≤ cs.length :=
            (List.dropWhile_suffix _).length_le
          omega
        have hR := ih (cs.dropWhile (fun d => d = '\n')) hzlen
        have hRhead := collapse_head_ne_nl f (cs.dropWhile (fun d => d = '\n')) hzhead
        rw [collapseNlF_cons_nl] at h
        by_cases h3 : 3 ≤ 1 + (cs.takeWhile (fun d => d = '\n')).length
        · rw [if_pos h3] at h
          exact notriple_two_cons_of_head _ hRhead hR h
        · rw [if_neg h3] at h
          have htw : (cs.takeWhile (fun d => d = '\n')).length = 0 ∨
              (cs.takeWhile (fun d => d = '\n')).length = 1 := by omega
          rcases htw with htw | htw
          · rw [htw] at h
            have hrep : List.replicate (1 + 0) '\n' = ['\n'] := rfl
            rw [hrep, List.singleton_append] at h
            exact notriple_cons_of_head _ hRhead hR h
          · rw [htw] at h
            have hrep : List.replicate (1 + 1) '\n' = ['\n', '\n'] := rfl
            rw [hrep, List.cons_append, List.singleton_append] at h
            exact notriple_two_cons_of_head _ hRhead hR h
      · rw [collapseNlF_cons_ne f c cs hc] at h
        rcases List.infix_cons_iff.mp h with hpre | hinf
        · obtain ⟨u, hu⟩ := hpre
          rw [List.cons_append] at hu
          injection hu with h1 _
          exact hc h1.symm
        · exact ih cs hcs hinf

theorem replicate_triple_infix (k : Nat) (z : List Char) (h3 : 3 ≤ k) :
    ['\n', '\n', '\n'] <:+: List.replicate k '\n' ++ z := by
  have hrep : List.replicate k '\n' =
      ['\n', '\n', '\n'] ++ List.replicate (k - 3) '\n' := by
    have h33 : List.replicate 3 '\n' = ['\n', '\n', '\n'] := rfl
    rw [← h33, ← List.replicate_add]
    congr 1
    omega
  exact ⟨[], List.replicate (k - 3) '\n' ++ z, by rw [hrep]; simp [List.append_assoc]⟩

/-- On inputs with no triple newline the collapse is the identity. -/
theorem collapse_id_of_noTriple :
    ∀ (f : Nat) (x : List Char), x.length ≤ f →
      ¬ (['\n', '\n', '\n'] <:+: x) → collapseNlF f x = x := by
  intro f
  induction f with
  | zero =>
    intro x hx _
    have hxe : x = [] := List.eq_nil_of_length_eq_zero (Nat.le_zero.mp hx)
    subst hxe
    rfl
  | succ f ih =>
    intro x hx hnt
    cases x with
    | nil => rfl
    | cons c cs =>
      have hcs : cs.length ≤ f := by
        rw [List.length_cons] at hx
        omega
      by_cases hc : c = '\n'
      · subst hc
        rw [collapseNlF_cons_nl]
        have h3 : ¬ 3 ≤ 1 + (cs.takeWhile (fun d => d = '\n')).length := by
          intro h3
          apply hnt
          rw [nl_run_decomp cs]
          exact replicate_triple_infix _ _ h3
        rw [if_neg h3]
        have hz : collapseNlF f (cs.dropWhile (fun d => d = '\n')) =
            cs.dropWhile (fun d => d = '\n') := by
          apply ih
          · have hd : (cs.dropWhile (fun d => d = '\n')).length ≤ cs.length :=
              (List.dropWhile_suffix _).length_le
            omega
          · intro hno
            exact hnt (infix_of_infix_cons (hno.trans (List.dropWhile_suffix _).isInfix))
        rw [hz]
        exact (nl_run_decomp cs).symm
      · rw [collapseNlF_cons_ne f c cs hc]
        rw [ih cs hcs (fun hno => hnt (infix_of_infix_cons hno))]

theorem headD_mem {l : List (List Char)} (h : l ≠ []) : l.headD [] ∈ l := by
  cases l with
  | nil => exact absurd rfl h
  | cons a as => exact List.mem_cons_self a as

/-- The lines of the collapsed text: the first line is unchanged and every
further line is an original non-first line or empty. -/
theorem lines_collapse :
    ∀ (f : Nat) (x : List Char), x.length ≤ f →
      ∃ t, splitOnChar '\n' (collapseNlF f x) =
          (splitOnChar '\n' x).headD [] :: t ∧
        ∀ m ∈ t, m ∈ (splitOnChar '\n' x).tail ∨ m = [] := by
  intro f
  induction f with
  | zero =>
    intro x hx
    have hxe : x = [] := List.eq_nil_of_length_eq_zero (Nat.le_zero.mp hx)
    subst hxe
    exact ⟨[], rfl, by intro m hm; simp at hm⟩
  | succ f ih =>
    intro x hx
    cases x with
    | nil => exact ⟨[], rfl, by intro m hm; simp at hm⟩
    | cons c cs =>
      have hcs : cs.length ≤ f := by
        rw [List.length_cons] at hx
        omega
      by_cases hc : c = '\n'
      · subst hc
        have hzlen : (cs.dropWhile (fun d => d = '\n')).length ≤ f := by
          have hd : (cs.dropWhile (fun d => d = '\n')).length ≤ cs.length :=
            (List.dropWhile_suffix _).length_le
          omega
        obtain ⟨t0, ht0, hmem0⟩ := ih (cs.dropWhile (fun d => d = '\n')) hzlen
        have hxsplit : splitOnChar '\n' ('\n' :: cs) =
            List.replicate (1 + (cs.takeWhile (fun d => d = '\n')).length) [] ++
              splitOnChar '\n' (cs.dropWhile (fun d => d = '\n')) := by
          conv_lhs => rw [nl_run_decomp cs]
          exact split_replicate_sep '\n' _ _
        have hhead : (splitOnChar '\n' ('\n' :: cs)).headD [] = [] := by
          rw [hxsplit, Nat.add_comm 1 _, List.replicate_succ, List.cons_append]
          rfl
        have htail : (splitOnChar '\n' ('\n' :: cs)).tail =
            List.replicate ((cs.takeWhile (fun d => d = '\n')).length) [] ++
              splitOnChar '\n' (cs.dropWhile (fun d => d = '\n')) := by
          rw [hxsplit, Nat.add_comm 1 _, List.replicate_succ, List.cons_append]
          rfl
        have hmemz : ∀ m, m ∈ splitOnChar '\n' (cs.dropWhile (fun d => d = '\n')) →
            m ∈ (splitOnChar '\n' ('\n' :: cs)).tail := by
          intro m hm
          rw [htail]
          exact List.mem_append_right _ hm
        have hmemt0 : ∀ m ∈ t0, m ∈ (splitOnChar '\n' ('\n' :: cs)).tail ∨ m = [] := by
          intro m hm
          rcases hmem0 m hm with hmz | hme
          · exact Or.inl (hmemz m (List.mem_of_mem_tail hmz))
          · exact Or.inr hme
        have hheadz : (splitOnChar '\n' (cs.dropWhile (fun d => d = '\n'))).headD [] ∈
            splitOnChar '\n' (cs.dropWhile (fun d => d = '\n')) :=
          headD_mem (split_ne_nil '\n' _)
        rw [collapseNlF_cons_nl]
        by_cases h3 : 3 ≤ 1 + (cs.takeWhile (fun d => d = '\n')).length
        · rw [if_pos h3]
          refine ⟨[] :: (splitOnChar '\n' (cs.dropWhile (fun d => d = '\n'))).headD [] ::
            t0, ?_, ?_⟩
          · rw [split_cons_sep, split_cons_sep, ht0, hhead]
          · intro m hm
            rcases List.mem_cons.mp hm with h1 | hm2
            · exact Or.inr h1
            rcases List.mem_cons.mp hm2 with h2 | hm3
            · rw [h2]
              exact Or.inl (hmemz _ hheadz)
            · exact hmemt0 m hm3
        · rw [if_neg h3]
          refine ⟨List.replicate ((cs.takeWhile (fun d => d = '\n')).length) [] ++
            (splitOnChar '\n' (cs.dropWhile (fun d => d = '\n'))).headD [] :: t0,
            ?_, ?_⟩
          · rw [split_replicate_sep, ht0, hhead, Nat.add_comm 1 _,
              List.replicate_succ, List.cons_append]
          · intro m hm
            rcases List.mem_append.mp hm with h1 | hm2
            · exact Or.inr (List.eq_of_mem_replicate h1)
            rcases List.mem_cons.mp hm2 with h2 | hm3
            · rw [h2]
              exact Or.inl (hmemz _ hheadz)
            · exact hmemt0 m hm3
      · obtain ⟨t1, ht1, hmem1⟩ := ih cs hcs
        obtain ⟨hd, tl, hsc, hscc⟩ := split_cons_ne '\n' c cs hc
        obtain ⟨hd2, tl2, hsr, hsrc⟩ := split_cons_ne '\n' c (collapseNlF f cs) hc
        have heq2 : hd2 :: tl2 = hd :: t1 := by
          rw [← hsr, ht1, hsc, List.headD_cons]
        injection heq2 with hhd htl
        rw [collapseNlF_cons_ne f c cs hc, hsrc]
        refine ⟨tl2, ?_, ?_⟩
        · rw [hscc, List.headD_cons, hhd]
        · intro m hm
          rw [htl] at hm
          rcases hmem1 m hm with h1 | h2
          · refine Or.inl ?_
            rw [hscc]
            rw [hsc] at h1
            exact h1
          · exact Or.inr h2

/-! ## Trim idempotence -/

theorem dropWhile_eq_self_of_head (p : Char → Bool) (l : List Char)
    (h : ∀ a, l.head? = some a → p a = false) : l.dropWhile p = l := by
  cases l with
  | nil => rfl
  | cons a as =>
    have ha : p a = false := h a rfl
    rw [List.dropWhile_cons_of_neg (by simp [ha])]

theorem jsTrimRight_eq_self_of_last (l : List Char)
    (h : ∀ a, l.getLast? = some a → isJsSpace a = false) : jsTrimRight l = l := by
  unfold jsTrimRight
  have hrev : ∀ a, l.reverse.head? = some a → isJsSpace a = false := by
    intro a ha
    apply h
    rw [← List.head?_reverse]
    exact ha
  rw [dropWhile_eq_self_of_head isJsSpace l.reverse hrev, List.reverse_reverse]

theorem jsTrimCore_head (l : List Char) :
    ∀ a, (jsTrimCore l).head? = some a → isJsSpace a = false := by
  intro a ha
  have hpre : jsTrimCore l <+: l.dropWhile isJsSpace := jsTrimRight_prefix _
  have hne : jsTrimCore l ≠ [] := by
    intro he
    rw [he] at ha
    simp at ha
  have hh := head?_of_prefix hpre hne
  exact head_dropWhile_false isJsSpace l a (by rw [hh]; exact ha)

theorem jsTrimCore_last (l : List Char) :
    ∀ a, (jsTrimCore l).getLast? = some a → isJsSpace a = false := by
  intro a ha
  unfold jsTrimCore jsTrimRight at ha
  rw [List.getLast?_reverse] at ha
  exact head_dropWhile_false isJsSpace _ a ha

theorem jsTrimCore_idem (l : List Char) :
    jsTrimCore (jsTrimCore l) = jsTrimCore l := by
  have h1 : (jsTrimCore l).dropWhile isJsSpace = jsTrimCore l :=
    dropWhile_eq_self_of_head isJsSpace _ (jsTrimCore_head l)
  show jsTrimRight ((jsTrimCore l).dropWhile isJsSpace) = jsTrimCore l
  rw [h1]
  exact jsTrimRight_eq_self_of_last _ (jsTrimCore_last l)

/-! ## Sanitizer idempotence -/

theorem lines_join_filter_keep (l : List Char) :
    ∀ m ∈ splitOnChar '\n' (joinChar '\n' ((splitOnChar '\n' l).filter keepLine)),
      keepLine m = true := by
  intro m hm
  cases hF : (splitOnChar '\n' l).filter keepLine with
  | nil =>
    rw [hF] at hm
    have h1 : splitOnChar '\n' (joinChar '\n' ([] : List (List Char))) = [[]] := rfl
    rw [h1] at hm
    rw [List.mem_singleton] at hm
    rw [hm]
    exact keepLine_nil
  | cons F0 Ft =>
    rw [split_join '\n' ((splitOnChar '\n' l).filter keepLine)
      (by rw [hF]; exact List.cons_ne_nil _ _)
      (fun m2 hm2 => mem_split_no_sep '\n' l m2 (List.mem_of_mem_filter hm2))] at hm
    exact List.of_mem_filter hm

theorem lines_collapseNl_keep (x : List Char)
    (hx : ∀ m ∈ splitOnChar '\n' x, keepLine m = true) :
    ∀ m ∈ splitOnChar '\n' (collapseNl x), keepLine m = true := by
  obtain ⟨t, ht, hmem⟩ := lines_collapse x.length x le_rfl
  intro m hm
  unfold collapseNl at hm
  rw [ht] at hm
  rcases List.mem_cons.mp hm with h1 | h2
  · rw [h1]
    exact hx _ (headD_mem (split_ne_nil '\n' x))
  · rcases hmem m h2 with h3 | h4
    · exact hx m (List.mem_of_mem_tail h3)
    · rw [h4]
      exact keepLine_nil

theorem sanitizeCore_noTriple (l : List Char) :
    ¬ (['\n', '\n', '\n'] <:+: sanitizeCore l) := by
  intro h
  exact collapse_noTriple _ _ le_rfl (h.trans ( jsTrimCore_infix _))

theorem sanitizeCore_lines_keep (l : List Char) :
    ∀ m ∈ splitOnChar '\n' (sanitizeCore l), keepLine m = true := by
  unfold sanitizeCore
  exact lines_trim_keep _ (lines_collapseNl_keep _ (lines_join_filter_keep l))

theorem sanitizeCore_trim_fixed (l : List Char) :
    jsTrimCore (sanitizeCore l) = sanitizeCore l := by
  unfold sanitizeCore
  exact jsTrimCore_idem _

theorem sanitizeCore_fixed (t : List Char)
    (ha : ∀ m ∈ splitOnChar '\n' t, keepLine m = true)
    (hb : ¬ (['\n', '\n', '\n'] <:+: t))
    (hc : jsTrimCore t = t) :
    sanitizeCore t = t := by
  unfold sanitizeCore
  rw [List.filter_eq_self.mpr ha, join_split]
  have hcol : collapseNl t = t := collapse_id_of_noTriple t.length t le_rfl hb
  rw [hcol, hc]

/-- C9: `sanitizeModelOutput` is idempotent — running the sanitizer on its
own output returns that output unchanged: the surviving lines still pass
the directive filter, no run of three newlines remains, and the result is
already trimmed. -/
theorem c9_sanitize_idempotent (s : String) :
    sanitizeModelOutput (sanitizeModelOutput s) = sanitizeModelOutput s := by
  show (⟨sanitizeCore (sanitizeCore s.data)⟩ : String) = ⟨sanitizeCore s.data⟩
  rw [sanitizeCore_fixed (sanitizeCore s.data)
    (sanitizeCore_lines_keep s.data)
    (sanitizeCore_noTriple s.data)
    (sanitizeCore_trim_fixed s.data)]

end Jarvis

